import Mathlib

/-!
# A shallow embedding of `myshell.cpp`

The interpreter of `src/myshell.cpp` is modelled as pure functions over an explicit
`Shell` state.  `std::string` is a list of characters, `size_t` is a natural number
reduced modulo `2 ^ 64`, `std::map` is a finite-support function, the operating
system (fork/wait, chdir) is an oracle `World`, and everything the interpreter does
to the outside (writes to its streams, children it spawns) is logged in the state.
-/

namespace MyShell

/-- A `std::string`: a sequence of characters. -/
abbrev Str := List Char

/-! ## `size_t` arithmetic and `std::string` primitives -/

/-- The modulus of `size_t` arithmetic (64-bit target). -/
def SIZE_MOD : Nat := 2 ^ 64

/-- The constant `std::string::npos`, the largest `size_t`. -/
def npos : Nat := 2 ^ 64 - 1

/-- Unsigned addition `a + b` on `size_t`. -/
def sizeAdd (a b : Nat) : Nat := (a + b) % SIZE_MOD

/-- Unsigned subtraction `a - b` on `size_t` (wraps around below zero). -/
def sizeSub (a b : Nat) : Nat := (a + SIZE_MOD - b) % SIZE_MOD

/-- Left-to-right search shared by the `find` family: `t` is the text still to be
searched, `i` the index of its first character; the answer is the index of the first
suffix accepted by `p`, or `npos`. -/
def findFrom (p : Str → Bool) : Str → Nat → Nat
  | [], _ => npos
  | c :: cs, i => if p (c :: cs) then i else findFrom p cs (i + 1)

/-- The call `s.find(ch, pos)`. -/
def findChar (s : Str) (ch : Char) (pos : Nat) : Nat :=
  findFrom (fun t => t.head?.any (fun c => c == ch)) (s.drop pos) pos

/-- The call `s.find_first_of(set, pos)`. -/
def findFirstOf (s : Str) (set : Str) (pos : Nat) : Nat :=
  findFrom (fun t => t.head?.any (fun c => set.contains c)) (s.drop pos) pos

/-- The call `s.find(pat, pos)` for a non-empty pattern `pat`. -/
def findStr (s : Str) (pat : Str) (pos : Nat) : Nat :=
  findFrom (fun t => pat.isPrefixOf t) (s.drop pos) pos

/-- The call `s.substr(pos, n)`: `none` stands for the `std::out_of_range` exception
raised when `pos > s.size()`; the count is clamped to the end of the string. -/
def substr (s : Str) (pos n : Nat) : Option Str :=
  if pos > s.length then none else some ((s.drop pos).take n)

/-- The call `s.substr(pos)`: the count defaults to `npos`, which reaches the end of
the string. -/
def substrFrom (s : Str) (pos : Nat) : Option Str :=
  if pos > s.length then none else some (s.drop pos)

/-- The call `s.replace(pos, n, v)`: `none` stands for `std::out_of_range`. -/
def replace (s : Str) (pos n : Nat) (v : Str) : Option Str :=
  if pos > s.length then none else some (s.take pos ++ v ++ (s.drop pos).drop n)

/-- The predicate `isspace` of the "C" locale, which `operator>>` uses to delimit words. -/
def isspace (c : Char) : Bool :=
  c == ' ' || c == '\t' || c == '\n' || c == '\x0b' || c == '\x0c' || c == '\r'

/-- Reading words with `istream_iterator<std::string>`: `cur` is the word being read. -/
def splitAux : Str → Str → List Str
  | [], cur => if cur.isEmpty then [] else [cur]
  | c :: cs, cur =>
    if isspace c then
      (if cur.isEmpty then splitAux cs [] else cur :: splitAux cs [])
    else splitAux cs (cur ++ [c])

/-- The `tokens` vector filled by `std::copy(istream_iterator ...)`. -/
def tokenize (s : Str) : List Str := splitAux s []

/-! ## Data model -/

/-- The member `variables` of `myshell.cpp` (a `std::map<std::string, std::string>`,
called `vars` in `myshell.hpp`). -/
abbrev Store := Str → Option Str

/-- The assignment `vars[name] = value`. -/
def Store.set (m : Store) (name value : Str) : Store :=
  fun k => if k = name then some value else m k

/-- The empty map. -/
def Store.empty : Store := fun _ => none

/-- What `waitpid` reports about a finished child. -/
inductive WaitStatus where
  | exited (code : Nat)
  | abnormal
  deriving DecidableEq, Repr

/-- The macro `WIFEXITED`. -/
def WIFEXITED : WaitStatus → Bool
  | .exited _ => true
  | .abnormal => false

/-- The macro `WEXITSTATUS`: the low eight bits of the exit code. -/
def WEXITSTATUS : WaitStatus → Int
  | .exited code => ((code % 256 : Nat) : Int)
  | .abnormal => 0

/-- The result of `fork()` seen by the interpreter, together with what the later
`waitpid` on that child reports. -/
inductive ForkResult where
  | failed
  | parent (pid : Nat) (status : WaitStatus)
  deriving DecidableEq, Repr

/-- The operating system: `fork n` answers the `n`-th `fork()` call of the session,
`chdir path` tells whether `chdir(path)` succeeds. -/
structure World where
  fork : Nat → ForkResult
  chdir : Str → Bool

/-- How the child opens the redirection target. -/
inductive OpenMode where
  | truncate
  | append
  deriving DecidableEq, Repr

/-- What a forked child does before and at `execlp("sh", "sh", "-c", command)`:
`stdoutFile` is the file it `dup2`s onto its standard output in the `if (redirect)`
block, `devNull` tells whether the `if (disablePrint)` block then points standard
output at `/dev/null`, `stderrFile` is the standard error it inherits. -/
structure Child where
  stdoutFile : Option (Str × OpenMode)
  devNull : Bool
  stderrFile : Option Str
  command : Str
  deriving DecidableEq, Repr

/-- The observable actions of the interpreter process itself. -/
inductive Event where
  | cout (text : Str)
  | cerr (text : Str)
  | cerrInt (n : Int)
  | creat (path : Str)
  | chdir (path : Str)
  deriving DecidableEq, Repr

/-- The members of `myShell`, the pending lines of standard input, and the log of
effects (`trace`, `spawned`). -/
structure Shell where
  childPid : Nat
  prompt : Str
  history : List Str
  vars : Store
  lastCommand : Str
  lastStatus : Int
  historyIndex : Nat
  lastExecutedCommand : Str
  status : Int
  stderrFile : Option Str
  stdin : List Str
  trace : List Event
  spawned : List Child

/-- The state built by the constructor `myShell::myShell` and the static initialisers. -/
def Shell.init : Shell where
  childPid := 0
  prompt := "hello:".toList
  history := []
  vars := Store.empty
  lastCommand := []
  lastStatus := 0
  historyIndex := 0
  lastExecutedCommand := []
  status := 0
  stderrFile := none
  stdin := []
  trace := []
  spawned := []

/-- Ways in which a run leaves the modelled control flow: a `std::out_of_range`
exception that nothing catches, a loop that used up its iteration bound, an unchecked
access outside a container (`operator[]` or an iterator past the end: undefined
behaviour), or `getchar` finding no further input. -/
inductive Fault where
  | outOfRange
  | noFuel
  | outOfBounds
  | endOfInput
  deriving DecidableEq, Repr

deriving instance DecidableEq for Except

/-- The result of running a member function: it returns `v`, or the process calls
`exit(code)`, or a fault occurs. -/
inductive Outcome (α : Type) where
  | ret (v : α) (s : Shell)
  | exit (code : Int) (s : Shell)
  | fault (f : Fault)

/-- Appending text to `std::cout`. -/
def Shell.cout (s : Shell) (text : Str) : Shell := { s with trace := s.trace ++ [Event.cout text] }

/-- Appending text to `std::cerr`. -/
def Shell.cerr (s : Shell) (text : Str) : Shell := { s with trace := s.trace ++ [Event.cerr text] }

/-! ## `myShell::executeCommand` -/

/-- The variable-substitution loop (source lines 146-158).  `pos0` is the value of
`pos` on entry to the loop test; the first argument bounds the number of iterations. -/
def substLoop (vars : Store) : Nat → Str → Nat → Except Fault Str
  | 0, _, _ => .error .noFuel
  | fuel + 1, command, pos0 =>
    let pos := findChar command '$' pos0
    if pos = npos then .ok command
    else
      let endPos := findFirstOf command " \t\n".toList pos
      match substr command (sizeAdd pos 1) (sizeSub (sizeSub endPos pos) 1) with
      | none => .error .outOfRange
      | some varName =>
        match vars varName with
        | some value =>
          match replace command pos (sizeSub endPos pos) value with
          | none => .error .outOfRange
          | some command1 => substLoop vars fuel command1 (sizeAdd pos value.length)
        | none => substLoop vars fuel command endPos

/-- The substitution step applied to `input`, with one iteration per character of the
input plus one for the final test. -/
def substitute (vars : Store) (input : Str) : Except Fault Str :=
  substLoop vars (input.length + 1) input 0

/-- The locals set by the redirection detection (source lines 160-191);
`stderrFile` is the file onto which the `2>` branch moves the interpreter's own
standard error with `creat`/`close`/`dup`. -/
structure Redirect where
  redirect : Bool
  append_redirect : Bool
  outfile : Str
  stderrFile : Option Str
  deriving DecidableEq, Repr

/-- Redirection detection on the substituted command. -/
def detectRedirect (command : Str) : Redirect :=
  if findChar command '>' 0 ≠ npos ∨ findStr command ">>".toList 0 ≠ npos
      ∨ findStr command "2>".toList 0 ≠ npos then
    let tokens := tokenize command
    let i := tokens.length
    if i ≥ 2 ∧ (tokens.getD (i - 2) [] = ">".toList ∨ tokens.getD (i - 2) [] = ">>".toList) then
      { redirect := true
        append_redirect := decide (tokens.getD (i - 2) [] = ">>".toList)
        outfile := tokens.getD (i - 1) []
        stderrFile := none }
    else if i ≥ 2 ∧ tokens.getD (i - 2) [] = "2>".toList then
      { redirect := true
        append_redirect := false
        outfile := tokens.getD (i - 1) []
        stderrFile := some (tokens.getD (i - 1) []) }
    else
      { redirect := false, append_redirect := false, outfile := [], stderrFile := none }
  else
    { redirect := false, append_redirect := false, outfile := [], stderrFile := none }

/-- The child branch of `executeCommand` (source lines 197-215). -/
def childOf (r : Redirect) (disablePrint : Bool) (stderrFile : Option Str) (command : Str) :
    Child where
  stdoutFile :=
    if r.redirect then
      some (r.outfile, if r.append_redirect then OpenMode.append else OpenMode.truncate)
    else none
  devNull := disablePrint
  stderrFile := stderrFile
  command := command

/-- The member function `executeCommand`. -/
def executeCommand (w : World) (s : Shell) (input : Str) (_isBackground : Bool)
    (disablePrint : Bool) : Outcome Int :=
  if input.isEmpty then .ret 0 s
  else
    match substitute s.vars input with
    | .error f => .fault f
    | .ok command =>
      let r := detectRedirect command
      let s1 : Shell :=
        match r.stderrFile with
        | some f => { s with stderrFile := some f, trace := s.trace ++ [Event.creat f] }
        | none => s
      match w.fork s1.spawned.length with
      | .failed => .exit 1 (s1.cerr "Error forking process.\n".toList)
      | .parent pid status =>
        let s2 : Shell :=
          { s1 with
            childPid := pid
            spawned := s1.spawned ++ [childOf r disablePrint s1.stderrFile command] }
        let s3 : Shell := { s2 with lastCommand := command }
        let s4 : Shell :=
          { s3 with lastStatus := if WIFEXITED status then WEXITSTATUS status else 2 }
        if s4.lastStatus = 2 then .ret s4.lastStatus s4
        else
          let s5 : Shell := { s4 with childPid := 0, lastExecutedCommand := command }
          if s5.lastStatus ≠ 0 ∧ disablePrint then .ret s5.lastStatus s5
          else .ret 0 s5

/-! ## `myShell::orCaseHandling` and `myShell::ifCaseHandling` -/

/-- The member function `orCaseHandling`. -/
def orCaseHandling (w : World) : Shell → List Str → Outcome Int
  | s, [] => .ret 1 s
  | s, cmd :: rest =>
    match executeCommand w s cmd true true with
    | .ret v s1 =>
      let s2 : Shell := { s1 with status := v }
      if v = 0 then .ret 0 s2 else orCaseHandling w s2 rest
    | .exit code s1 => .exit code s1
    | .fault f => .fault f

/-- The member function `ifCaseHandling`. -/
def ifCaseHandling (w : World) (s : Shell) (ifCommand : Str) : Outcome Int :=
  let thenIndex := findStr ifCommand "then".toList 0
  if thenIndex = npos then .ret (-1) (s.cerr "Syntax error: 'then' not found.\n".toList)
  else
    match substr ifCommand 2 (sizeSub thenIndex 2) with
    | none => .fault .outOfRange
    | some condition =>
      if condition.isEmpty then
        .ret (-1) (s.cerr "Syntax error: condition is empty.\n".toList)
      else
        let elseIndex := findStr ifCommand "else".toList 0
        if elseIndex = npos then
          .ret (-1) (s.cerr "Syntax error: 'else' not found.\n".toList)
        else
          match substr ifCommand (sizeAdd thenIndex 4)
              (sizeSub (sizeSub elseIndex thenIndex) 4) with
          | none => .fault .outOfRange
          | some thenPart =>
            let fiIndex := findStr ifCommand "fi".toList 0
            if fiIndex = npos then
              .ret (-1) (s.cerr "Syntax error: 'fi' not found.\n".toList)
            else
              match substr ifCommand (sizeAdd elseIndex 4)
                  (sizeSub (sizeSub fiIndex elseIndex) 4) with
              | none => .fault .outOfRange
              | some elsePart =>
                if thenPart.isEmpty ∨ elsePart.isEmpty then
                  .ret (-1)
                    (s.cerr "Syntax error: then-part or else-part is empty.\n".toList)
                else
                  match executeCommand w s condition true true with
                  | .exit code s1 => .exit code s1
                  | .fault f => .fault f
                  | .ret v s1 =>
                    let s2 : Shell := { s1 with status := v }
                    if v = 0 then
                      match executeCommand w s2 thenPart false false with
                      | .ret _ s3 => .ret s3.status s3
                      | .exit code s3 => .exit code s3
                      | .fault f => .fault f
                    else
                      match executeCommand w s2 elsePart false false with
                      | .ret _ s3 => .ret s3.status s3
                      | .exit code s3 => .exit code s3
                      | .fault f => .fault f

/-! ## `myShell::parse` -/

/-- The call `std::getline(std::cin, readArg)`: the next pending line, or the empty
string at end of input. -/
def getline (s : Shell) : Str × Shell :=
  match s.stdin with
  | [] => ([], s)
  | l :: rest => (l, { s with stdin := rest })

/-- The member function `parse`. -/
def parse (w : World) (s0 : Shell) (input : Str) : Outcome Unit :=
  let tokens := tokenize input
  let s : Shell :=
    { s0 with history := s0.history ++ [input], historyIndex := (s0.history ++ [input]).length }
  if tokens.isEmpty then .ret () s
  else if tokens.getD 0 [] = "if".toList then
    match ifCaseHandling w s input with
    | .ret _ s1 => .ret () s1
    | .exit code s1 => .exit code s1
    | .fault f => .fault f
  else if tokens.getD 0 [] = "or".toList then
    match orCaseHandling w s (tokens.drop 1) with
    | .ret _ s1 => .ret () s1
    | .exit code s1 => .exit code s1
    | .fault f => .fault f
  else if tokens.getD 0 [] = "quit".toList then .exit 0 s
  else if tokens.getD 0 [] = "echo".toList ∧ tokens.length > 1
      ∧ tokens.getD 1 [] = "$?".toList then
    .ret () { s with trace := s.trace ++ [Event.cerrInt s.lastStatus, Event.cerr "\n".toList] }
  else if tokens.getD 0 [] = "echo".toList ∧ tokens.length > 1
      ∧ (tokens.getD 1 []).head? = some '$' then
    match substrFrom (tokens.getD 1 []) 1 with
    | none => .fault .outOfRange
    | some varName =>
      match s.vars varName with
      | some value => .ret () (s.cout (value ++ "\n".toList))
      | none => .ret () (s.cerr "Variable not found.\n".toList)
  else if tokens.length ≥ 2 ∧ tokens.getD 0 [] = "cd".toList then
    let s1 : Shell := { s with trace := s.trace ++ [Event.chdir (tokens.getD 1 [])] }
    if w.chdir (tokens.getD 1 []) then .ret () s1
    else .ret () (s1.cerr "Error changing directory.\n".toList)
  else if tokens.length = 2 ∧ tokens.getD 0 [] = "read".toList then
    let (readArg, s1) := getline s
    .ret () { s1 with vars := s1.vars.set (tokens.getD 1 []) readArg }
  else if tokens.length ≥ 3 ∧ tokens.getD 0 [] = "prompt".toList
      ∧ tokens.getD 1 [] = "=".toList then
    .ret () { s with prompt := tokens.getD 2 [] }
  else if tokens.getD 0 [] = "!!".toList then
    if ¬ s.lastExecutedCommand.isEmpty then
      match executeCommand w s s.lastExecutedCommand false false with
      | .ret _ s1 => .ret () s1
      | .exit code s1 => .exit code s1
      | .fault f => .fault f
    else .ret () (s.cerr "No previous command in history.\n".toList)
  else if tokens.length = 3 ∧ tokens.getD 1 [] = "=".toList then
    match substrFrom (tokens.getD 0 []) 1 with
    | none => .fault .outOfRange
    | some name => .ret () { s with vars := s.vars.set name (tokens.getD 2 []) }
  else
    match executeCommand w s input false false with
    | .ret v s1 => .ret () { s1 with lastStatus := v, lastExecutedCommand := input }
    | .exit code s1 => .exit code s1
    | .fault f => .fault f

/-- The loop of `myShell::run`, with the lines that `getInput` returns given in advance. -/
def runLines (w : World) : Shell → List Str → Outcome Unit
  | s, [] => .ret () s
  | s, line :: rest =>
    match parse w s line with
    | .ret _ s1 => runLines w s1 rest
    | .exit code s1 => .exit code s1
    | .fault f => .fault f

/-! ## Observations -/

/-- The state in which a call returned. -/
def Outcome.state? {α : Type} : Outcome α → Option Shell
  | .ret _ s => some s
  | .exit _ _ => none
  | .fault _ => none

/-- The value a call returned. -/
def Outcome.value? {α : Type} : Outcome α → Option α
  | .ret v _ => some v
  | .exit _ _ => none
  | .fault _ => none

/-- The log of the interpreter's own actions when the call returned. -/
def Outcome.trace? {α : Type} (o : Outcome α) : Option (List Event) := o.state?.map (·.trace)

/-- The children spawned so far when the call returned. -/
def Outcome.spawned? {α : Type} (o : Outcome α) : Option (List Child) :=
  o.state?.map (·.spawned)

/-- The member `lastStatus` when the call returned. -/
def Outcome.lastStatus? {α : Type} (o : Outcome α) : Option Int := o.state?.map (·.lastStatus)

/-- The member `childPid` when the call returned. -/
def Outcome.childPid? {α : Type} (o : Outcome α) : Option Nat := o.state?.map (·.childPid)

/-- The commands handed to `sh -c` so far, each with the flag telling whether its
standard output was sent to `/dev/null`. -/
def Shell.ran (s : Shell) : List (Str × Bool) := s.spawned.map (fun c => (c.command, c.devNull))

/-- The commands run when the call returned. -/
def Outcome.ran? {α : Type} (o : Outcome α) : Option (List (Str × Bool)) := o.state?.map (·.ran)

/-! ## Auxiliary notions used in the statements -/

/-- The value `executeCommand` stores in `lastStatus` after `waitpid` reported `status`
(source lines 221-225). -/
def recorded (status : WaitStatus) : Int :=
  if WIFEXITED status then WEXITSTATUS status else 2

/-- The value `executeCommand` returns from its parent branch (source lines 227-237). -/
def returned (status : WaitStatus) (disablePrint : Bool) : Int :=
  if recorded status = 2 then 2
  else if recorded status ≠ 0 ∧ disablePrint = true then recorded status else 0

/-- The state in which the parent branch of `executeCommand` returns. -/
def afterWait (s : Shell) (command : Str) (disablePrint : Bool) (pid : Nat)
    (status : WaitStatus) : Shell :=
  let r := detectRedirect command
  let s1 : Shell :=
    match r.stderrFile with
    | some f => { s with stderrFile := some f, trace := s.trace ++ [Event.creat f] }
    | none => s
  let s4 : Shell :=
    { s1 with
      childPid := pid
      spawned := s1.spawned ++ [childOf r disablePrint s1.stderrFile command]
      lastCommand := command
      lastStatus := recorded status }
  if recorded status = 2 then s4
  else { s4 with childPid := 0, lastExecutedCommand := command }

/-- The characters that end a variable name in the substitution loop: the set
`" \t\n"` passed to `find_first_of`. -/
def isDelim (c : Char) : Bool := c == ' ' || c == '\t' || c == '\n'

/-- What a `$name` span becomes: the bound value, or the span itself when the name is
not bound. -/
def expandName (vars : Store) (name : Str) : Str :=
  match vars name with
  | some value => value
  | none => '$' :: name

/-- Single-pass substitution, read off the text from left to right.  The second
argument is `none` outside a span and `some n` inside a `$name` span whose name read
so far is `n`.  A span starts at a `$` met outside a span and extends up to the next
delimiter or the end of the text; what is put in its place is not looked at again. -/
def substSpecAux (vars : Store) : Option Str → Str → Str
  | none, [] => []
  | none, c :: cs =>
    if c = '$' then substSpecAux vars (some []) cs else c :: substSpecAux vars none cs
  | some n, [] => expandName vars n
  | some n, c :: cs =>
    if isDelim c then expandName vars n ++ c :: substSpecAux vars none cs
    else substSpecAux vars (some (n ++ [c])) cs

/-- The text that single-pass, non-recursive substitution makes of `text`. -/
def substSpec (vars : Store) (text : Str) : Str := substSpecAux vars none text

/-- The name of the span opened by a `$` that is followed by the text `b`: the longest
run of characters of `b` up to the next delimiter. -/
def nameAfter (b : Str) : Str := b.takeWhile (fun c => !isDelim c)

/-- No `$` of the text is followed by the name of a bound variable. -/
def NoBoundName (vars : Store) : Str → Prop
  | [] => True
  | c :: cs => (c = '$' → vars (nameAfter cs) = none) ∧ NoBoundName vars cs

instance NoBoundName.decidable (vars : Store) : (text : Str) → Decidable (NoBoundName vars text)
  | [] => isTrue trivial
  | c :: cs =>
    have := NoBoundName.decidable vars cs
    inferInstanceAs (Decidable ((c = '$' → vars (nameAfter cs) = none) ∧ NoBoundName vars cs))

/-- The line `if cmdA then cmdB else cmdC fi`, with single blanks around the keywords. -/
def ifLine (cmdA cmdB cmdC : Str) : Str :=
  "if ".toList ++ cmdA ++ " then ".toList ++ cmdB ++ " else ".toList ++ cmdC ++ " fi".toList

/-- The lines that `ifCaseHandling` rejects: one of the letter sequences `then`, `else`,
`fi` occurs nowhere in the line, or no character lies between position 2 and the first
`then`, between the first `then` and the first `else`, or between the first `else` and
the first `fi`. -/
def Malformed (line : Str) : Prop :=
  ¬ "then".toList <:+: line ∨ ¬ "else".toList <:+: line ∨ ¬ "fi".toList <:+: line
  ∨ (∃ c0 c1 post, line = c0 :: c1 :: ("then".toList ++ post))
  ∨ (∃ pre post, line = pre ++ ("then".toList ++ ("else".toList ++ post))
      ∧ ¬ "then".toList <:+: pre ++ "the".toList
      ∧ ¬ "else".toList <:+: pre ++ "thenels".toList)
  ∨ (∃ pre post, line = pre ++ ("else".toList ++ ("fi".toList ++ post))
      ∧ ¬ "else".toList <:+: pre ++ "els".toList
      ∧ ¬ "fi".toList <:+: pre ++ "elsef".toList)

/-- A world in which every `fork()` succeeds, the `n`-th child gets process id `n + 1`
and is reported by `waitpid` with `status`, and every `chdir` succeeds. -/
def World.always (status : WaitStatus) : World where
  fork := fun n => ForkResult.parent (n + 1) status
  chdir := fun _ => true

/-- A word as `operator>>` reads it: no character is white space. -/
def IsWord (t : Str) : Prop := ∀ c ∈ t, isspace c = false

instance : DecidablePred IsWord := fun t =>
  inferInstanceAs (Decidable (∀ c ∈ t, isspace c = false))

/-! ## `myShell::getInput` -/

/-- The locals `input` and `cursorPosition` of `getInput`, together with the
interpreter state it reads and writes (`history`, `historyIndex`, `prompt`, the output). -/
structure Edit where
  input : Str
  cursorPosition : Nat
  shell : Shell

/-- The keystrokes `getInput` tells apart, other than Enter: the escape sequences
`ESC [ A` (up), `ESC [ B` (down), `ESC [ C` (right), `ESC [ D` (left), any other escape
sequence, the character 127 (Backspace), and every remaining character. -/
inductive Key where
  | up
  | down
  | right
  | left
  | other
  | backspace
  | char (ch : Char)
  deriving DecidableEq, Repr

/-- Writing to `std::cout` from within `getInput`. -/
def Edit.cout (e : Edit) (text : Str) : Edit := { e with shell := e.shell.cout text }

/-- The call `s.erase(pos, n)`: `none` stands for `std::out_of_range`. -/
def erase (s : Str) (pos n : Nat) : Option Str :=
  if pos > s.length then none else some (s.take pos ++ (s.drop pos).drop n)

/-- The text written by `for (i = cursorPosition; i < input.length(); ++i) cout << "\033[D"`. -/
def cursorBack (input : Str) (cursorPosition : Nat) : Str :=
  (List.replicate (input.length - cursorPosition) "\x1b[D".toList).flatten

/-- The line `"\r" << prompt << " " << input << " \033[K"`. -/
def redrawLine (prompt input : Str) : Str :=
  "\r".toList ++ prompt ++ " ".toList ++ input ++ " \x1b[K".toList

/-- What `getInput` does on one keystroke (source lines 79-134). -/
def pressKey : Key → Edit → Except Fault Edit
  | .up, e =>
    if e.shell.historyIndex > 0 then
      let historyIndex := sizeSub e.shell.historyIndex 1
      match e.shell.history[historyIndex]? with
      | none => .error .outOfBounds
      | some line =>
        .ok { input := line
              cursorPosition := line.length
              shell := ({ e.shell with historyIndex := historyIndex } : Shell).cout
                (redrawLine e.shell.prompt line) }
    else .ok e
  | .down, e =>
    if e.shell.historyIndex < sizeSub e.shell.history.length 1 then
      let historyIndex := sizeAdd e.shell.historyIndex 1
      match e.shell.history[historyIndex]? with
      | none => .error .outOfBounds
      | some line =>
        .ok { input := line
              cursorPosition := line.length
              shell := ({ e.shell with historyIndex := historyIndex } : Shell).cout
                (redrawLine e.shell.prompt line) }
    else if e.shell.historyIndex = sizeSub e.shell.history.length 1 then
      .ok { input := []
            cursorPosition := 0
            shell := ({ e.shell with historyIndex := sizeAdd e.shell.historyIndex 1 } : Shell).cout
              ("\r".toList ++ e.shell.prompt ++ " ".toList ++ " \x1b[K".toList) }
    else .ok e
  | .right, e =>
    if e.cursorPosition < e.input.length then
      ({ e with cursorPosition := sizeAdd e.cursorPosition 1 } : Edit).cout "\x1b[C".toList |> .ok
    else .ok e
  | .left, e =>
    if e.cursorPosition > 0 then
      ({ e with cursorPosition := sizeSub e.cursorPosition 1 } : Edit).cout "\x1b[D".toList |> .ok
    else .ok e
  | .other, e => .ok e
  | .backspace, e =>
    if e.cursorPosition > 0 ∧ ¬ e.input.isEmpty then
      match erase e.input (sizeSub e.cursorPosition 1) 1 with
      | none => .error .outOfRange
      | some input =>
        let cursorPosition := sizeSub e.cursorPosition 1
        .ok { input := input
              cursorPosition := cursorPosition
              shell := e.shell.cout (redrawLine e.shell.prompt input ++ "\r".toList
                ++ e.shell.prompt ++ " ".toList ++ input ++ cursorBack input cursorPosition) }
    else .ok e
  | .char ch, e =>
    if e.cursorPosition > e.input.length then .error .outOfBounds
    else
      let input := e.input.take e.cursorPosition ++ ch :: e.input.drop e.cursorPosition
      let cursorPosition := sizeAdd e.cursorPosition 1
      .ok { input := input
            cursorPosition := cursorPosition
            shell := e.shell.cout (redrawLine e.shell.prompt input ++ "\r".toList
              ++ e.shell.prompt ++ " ".toList ++ input ++ cursorBack input cursorPosition) }

/-- The `switch` on the third character of an escape sequence. -/
def arrowKey (k : Char) : Key :=
  if k = 'A' then .up else if k = 'B' then .down else if k = 'C' then .right
  else if k = 'D' then .left else .other

/-- A sequence of keystrokes, one after the other. -/
def pressKeys : List Key → Edit → Except Fault Edit
  | [], e => .ok e
  | k :: ks, e =>
    match pressKey k e with
    | .ok e1 => pressKeys ks e1
    | .error f => .error f

/-- The `while (true)` loop of `getInput` over the characters `getchar` delivers; the
result is the state at Enter and the characters not yet read. -/
def getInputLoop : List Char → Edit → Except Fault (Edit × List Char)
  | [], _ => .error .endOfInput
  | ch :: rest, e =>
    if ch = '\n' then .ok (e.cout "\n".toList, rest)
    else if ch = '\x1b' then
      match rest with
      | _ :: k :: rest1 =>
        match pressKey (arrowKey k) e with
        | .ok e1 => getInputLoop rest1 e1
        | .error f => .error f
      | _ => .error .endOfInput
    else if ch = '\x7f' then
      match pressKey .backspace e with
      | .ok e1 => getInputLoop rest e1
      | .error f => .error f
    else
      match pressKey (.char ch) e with
      | .ok e1 => getInputLoop rest e1
      | .error f => .error f

/-- The member function `getInput`, reading the characters `keys`; it returns the
line and the characters left unread.  (Switching the terminal mode is not represented.) -/
def getInput (keys : List Char) (s : Shell) : Outcome (Str × List Char) :=
  match getInputLoop keys { input := [], cursorPosition := 0, shell := s } with
  | .ok (e, rest) => .ret (e.input, rest) e.shell
  | .error f => .fault f

/-! ## `myShell::executePipes` -/

/-- Unsigned multiplication `a * b` on `size_t` (also the shift `a << 1` for `b = 2`). -/
def sizeMul (a b : Nat) : Nat := (a * b) % SIZE_MOD

/-- What the child forked for one stage does (source lines 256-279): the index in the
table `pipes` of the descriptor it `dup2`s onto its standard input and onto its
standard output, the indices it closes, and the command it executes. -/
structure Stage where
  stdinFrom : Option Nat
  stdoutTo : Option Nat
  closes : List Nat
  command : Str
  disablePrint : Bool
  deriving DecidableEq, Repr

/-- The system calls of the parent in `executePipes`, in order: the allocation of the
table `pipes`, `pipe(pipes.data() + index)`, `fork()`, `close(pipes[index])`, `wait`,
and a message on `std::cerr`. -/
inductive PipeCall where
  | alloc (size : Nat)
  | pipe (index : Nat)
  | fork (stage : Stage)
  | close (index : Nat)
  | wait
  | cerr (text : Str)
  deriving DecidableEq, Repr

/-- Whether the `i`-th `pipe()` call and the `i`-th `fork()` call of one `executePipes`
succeed. -/
structure PipeWorld where
  pipe : Nat → Bool
  fork : Nat → Bool

/-- The child of stage `i` among `n` commands. -/
def stageOf (commands : List Str) (disablePrint : Bool) (tableSize : Nat) (i : Nat) : Stage where
  stdinFrom := if i ≠ 0 then some (sizeMul (sizeSub i 1) 2) else none
  stdoutTo :=
    if i ≠ sizeSub commands.length 1 then some (sizeAdd (sizeMul i 2) 1) else none
  closes := List.range tableSize
  command := commands.getD i []
  disablePrint := disablePrint

/-- The loop creating the pipes (source lines 243-248) over the values of `i` still to
come; an error carries the exit code. -/
def createPipes (pw : PipeWorld) : List Nat → List PipeCall → Except (Int × List PipeCall) (List PipeCall)
  | [], calls => .ok calls
  | i :: rest, calls =>
    if pw.pipe i then createPipes pw rest (calls ++ [PipeCall.pipe (sizeMul i 2)])
    else .error (1, calls ++ [PipeCall.pipe (sizeMul i 2),
      PipeCall.cerr "Error creating pipe.\n".toList])

/-- The loop forking one child per command (source lines 250-280). -/
def forkStages (pw : PipeWorld) (commands : List Str) (disablePrint : Bool) (tableSize : Nat) :
    List Nat → List PipeCall → Except (Int × List PipeCall) (List PipeCall)
  | [], calls => .ok calls
  | i :: rest, calls =>
    if pw.fork i then
      forkStages pw commands disablePrint tableSize rest
        (calls ++ [PipeCall.fork (stageOf commands disablePrint tableSize i)])
    else .error (1, calls ++ [PipeCall.cerr "Error forking process.\n".toList])

/-- The body of `executePipes` (source lines 243-289) seen from the parent, once the two
sizes it works with are computed: `bound` is the value of `commands.size() - 1` and
`tableSize` the value of `pipes.size()`.  The result is the calls made, or the exit code
and the calls made up to `exit`. -/
def executePipesFrom (pw : PipeWorld) (commands : List Str) (disablePrint : Bool)
    (bound tableSize : Nat) : Except (Int × List PipeCall) (List PipeCall) :=
  match createPipes pw (List.range bound) [PipeCall.alloc tableSize] with
  | .error e => .error e
  | .ok calls1 =>
    match forkStages pw commands disablePrint tableSize (List.range commands.length) calls1 with
    | .error e => .error e
    | .ok calls2 =>
      .ok (calls2 ++ (List.range tableSize).map PipeCall.close
        ++ List.replicate commands.length PipeCall.wait)

/-- The member function `executePipes`, seen from the parent: the table `pipes` has
`(commands.size() - 1) * 2` entries, in `size_t` arithmetic. -/
def executePipes (pw : PipeWorld) (commands : List Str) (disablePrint : Bool) :
    Except (Int × List PipeCall) (List PipeCall) :=
  executePipesFrom pw commands disablePrint (sizeSub commands.length 1)
    (sizeMul (sizeSub commands.length 1) 2)

/-! ## Further notions used in the statements -/

/-- The part of `ifCaseHandling` that runs the commands, once the three texts are cut
out of the line (source lines 336-344). -/
def ifRun (w : World) (s : Shell) (condition thenPart elsePart : Str) : Outcome Int :=
  match executeCommand w s condition true true with
  | .exit code s1 => .exit code s1
  | .fault f => .fault f
  | .ret v s1 =>
    let s2 : Shell := { s1 with status := v }
    if v = 0 then
      match executeCommand w s2 thenPart false false with
      | .ret _ s3 => .ret s3.status s3
      | .exit code s3 => .exit code s3
      | .fault f => .fault f
    else
      match executeCommand w s2 elsePart false false with
      | .ret _ s3 => .ret s3.status s3
      | .exit code s3 => .exit code s3
      | .fault f => .fault f

/-- The dispatch of `parse` (source lines 358-404) as a function of the token vector
and of the state after the history has been extended. -/
def dispatch (w : World) (s : Shell) (input : Str) (tokens : List Str) : Outcome Unit :=
  if tokens.isEmpty then .ret () s
  else if tokens.getD 0 [] = "if".toList then
    match ifCaseHandling w s input with
    | .ret _ s1 => .ret () s1
    | .exit code s1 => .exit code s1
    | .fault f => .fault f
  else if tokens.getD 0 [] = "or".toList then
    match orCaseHandling w s (tokens.drop 1) with
    | .ret _ s1 => .ret () s1
    | .exit code s1 => .exit code s1
    | .fault f => .fault f
  else if tokens.getD 0 [] = "quit".toList then .exit 0 s
  else if tokens.getD 0 [] = "echo".toList ∧ tokens.length > 1
      ∧ tokens.getD 1 [] = "$?".toList then
    .ret () { s with trace := s.trace ++ [Event.cerrInt s.lastStatus, Event.cerr "\n".toList] }
  else if tokens.getD 0 [] = "echo".toList ∧ tokens.length > 1
      ∧ (tokens.getD 1 []).head? = some '$' then
    match substrFrom (tokens.getD 1 []) 1 with
    | none => .fault .outOfRange
    | some varName =>
      match s.vars varName with
      | some value => .ret () (s.cout (value ++ "\n".toList))
      | none => .ret () (s.cerr "Variable not found.\n".toList)
  else if tokens.length ≥ 2 ∧ tokens.getD 0 [] = "cd".toList then
    let s1 : Shell := { s with trace := s.trace ++ [Event.chdir (tokens.getD 1 [])] }
    if w.chdir (tokens.getD 1 []) then .ret () s1
    else .ret () (s1.cerr "Error changing directory.\n".toList)
  else if tokens.length = 2 ∧ tokens.getD 0 [] = "read".toList then
    let (readArg, s1) := getline s
    .ret () { s1 with vars := s1.vars.set (tokens.getD 1 []) readArg }
  else if tokens.length ≥ 3 ∧ tokens.getD 0 [] = "prompt".toList
      ∧ tokens.getD 1 [] = "=".toList then
    .ret () { s with prompt := tokens.getD 2 [] }
  else if tokens.getD 0 [] = "!!".toList then
    if ¬ s.lastExecutedCommand.isEmpty then
      match executeCommand w s s.lastExecutedCommand false false with
      | .ret _ s1 => .ret () s1
      | .exit code s1 => .exit code s1
      | .fault f => .fault f
    else .ret () (s.cerr "No previous command in history.\n".toList)
  else if tokens.length = 3 ∧ tokens.getD 1 [] = "=".toList then
    match substrFrom (tokens.getD 0 []) 1 with
    | none => .fault .outOfRange
    | some name => .ret () { s with vars := s.vars.set name (tokens.getD 2 []) }
  else
    match executeCommand w s input false false with
    | .ret v s1 => .ret () { s1 with lastStatus := v, lastExecutedCommand := input }
    | .exit code s1 => .exit code s1
    | .fault f => .fault f

/-- The editor state is in order for lines of at most `L` characters: the edit cursor
lies within the buffer, the history is not empty and its cursor lies within it, and the
buffer and the history entries have at most `L` characters. -/
def EditOK (L : Nat) (e : Edit) : Prop :=
  e.cursorPosition ≤ e.input.length ∧ e.input.length ≤ L ∧
  e.shell.history ≠ [] ∧ e.shell.history.length < 2 ^ 64 ∧
  e.shell.historyIndex ≤ e.shell.history.length ∧
  ∀ h ∈ e.shell.history, h.length ≤ L

/-- Every text that `parse` may hand to `executeCommand` when it dispatches `line` in
state `s` (a piece of the line, or the last executed command) stays, together with
what substitution makes of it, within the range of `size_t`. -/
def Fits (s : Shell) (line : Str) : Prop :=
  line.length < 2 ^ 64 ∧
  ∀ cmd : Str, (cmd <:+: line ∨ cmd = s.lastExecutedCommand) →
    cmd.length + (substSpec s.vars cmd).length < 2 ^ 64

/-- The lines fit one after the other, each in the state the earlier ones lead to. -/
def FitsAll (w : World) : Shell → List Str → Prop
  | _, [] => True
  | s, line :: rest => Fits s line ∧ ∀ s1, parse w s line = .ret () s1 → FitsAll w s1 rest

/-- A world in which every `fork()` succeeds, the `n`-th child gets process id `n + 1`
and is reported by `waitpid` with the `n`-th entry of `statuses` (with a normal exit
with code 0 beyond the list), and every `chdir` succeeds. -/
def World.script (statuses : List WaitStatus) : World where
  fork := fun n => ForkResult.parent (n + 1) (statuses.getD n (.exited 0))
  chdir := fun _ => true

/-- The member `history` when the call returned. -/
def Outcome.history? {α : Type} (o : Outcome α) : Option (List Str) := o.state?.map (·.history)

/-- The member `historyIndex` when the call returned. -/
def Outcome.historyIndex? {α : Type} (o : Outcome α) : Option Nat :=
  o.state?.map (·.historyIndex)

/-! # Theorems -/

/-! ### Words and tokens -/

theorem splitAux_word (word : Str) (h : IsWord word) (rest cur : Str) :
    splitAux (word ++ rest) cur = splitAux rest (cur ++ word) := by
  induction word generalizing cur with
  | nil => simp
  | cons c cs ih =>
    have hc : isspace c = false := h c (List.mem_cons_self _ _)
    have hcs : IsWord cs := fun d hd => h d (List.mem_cons_of_mem _ hd)
    simp [splitAux, hc, ih hcs]

theorem splitAux_space (c : Char) (hc : isspace c = true) (rest cur : Str) (hcur : cur ≠ []) :
    splitAux (c :: rest) cur = cur :: splitAux rest [] := by
  simp [splitAux, hc, hcur]

theorem tokenize_three (a b c : Str) (ha : IsWord a) (hb : IsWord b) (hc : IsWord c)
    (ha0 : a ≠ []) (hb0 : b ≠ []) (hc0 : c ≠ []) :
    tokenize (a ++ ' ' :: (b ++ ' ' :: c)) = [a, b, c] := by
  unfold tokenize
  rw [splitAux_word a ha, List.nil_append, splitAux_space _ (by decide) _ _ ha0,
    splitAux_word b hb, List.nil_append, splitAux_space _ (by decide) _ _ hb0]
  have := splitAux_word c hc [] []
  simp only [List.append_nil, List.nil_append] at this
  rw [this]
  simp [splitAux, hc0]

theorem tokenize_two (a b : Str) (ha : IsWord a) (hb : IsWord b)
    (ha0 : a ≠ []) (hb0 : b ≠ []) :
    tokenize (a ++ ' ' :: b) = [a, b] := by
  unfold tokenize
  rw [splitAux_word a ha, List.nil_append, splitAux_space _ (by decide) _ _ ha0]
  have := splitAux_word b hb [] []
  simp only [List.append_nil, List.nil_append] at this
  rw [this]
  simp [splitAux, hb0]

theorem parse_assign (w : World) (s : Shell) (name value : Str)
    (hname : IsWord name) (hvalue : IsWord value) (hne : value ≠ []) :
    parse w s ('$' :: name ++ " = ".toList ++ value) = .ret ()
      { s with history := s.history ++ ['$' :: name ++ " = ".toList ++ value],
               historyIndex := (s.history ++ ['$' :: name ++ " = ".toList ++ value]).length,
               vars := s.vars.set name value } := by
  have htok : tokenize ('$' :: name ++ " = ".toList ++ value) = ['$' :: name, "=".toList, value] := by
    have := tokenize_three ('$' :: name) "=".toList value ?_ (by decide) hvalue (by simp) (by simp) hne
    · simpa using this
    · intro c hc
      rcases List.mem_cons.1 hc with rfl | h
      · decide
      · exact hname c h
  unfold parse
  rw [htok]
  simp [substrFrom]

theorem parse_echo (w : World) (s : Shell) (name : Str)
    (hname : IsWord name) (hq : name ≠ "?".toList) :
    parse w s ("echo $".toList ++ name) = .ret ()
      (match s.vars name with
       | some value =>
         ({ s with history := s.history ++ ["echo $".toList ++ name],
                   historyIndex := (s.history ++ ["echo $".toList ++ name]).length } : Shell).cout
           (value ++ "\n".toList)
       | none =>
         ({ s with history := s.history ++ ["echo $".toList ++ name],
                   historyIndex := (s.history ++ ["echo $".toList ++ name]).length } : Shell).cerr
           "Variable not found.\n".toList) := by
  have htok : tokenize ("echo $".toList ++ name) = ["echo".toList, '$' :: name] := by
    have := tokenize_two "echo".toList ('$' :: name) (by decide) ?_ (by simp) (by simp)
    · simpa using this
    · intro c hc
      rcases List.mem_cons.1 hc with rfl | h
      · decide
      · exact hname c h
  unfold parse
  rw [htok]
  have hq2 : ¬ name = ['?'] := by simpa using hq
  cases hv : s.vars name <;> simp [substrFrom, hq2, hv]

/-! ### The parent branch of `executeCommand` -/

theorem executeCommand_eq (w : World) (s : Shell) (input : Str) (bg dp : Bool)
    (command : Str) (pid : Nat) (status : WaitStatus)
    (hin : input ≠ []) (hsub : substitute s.vars input = .ok command)
    (hfork : w.fork s.spawned.length = .parent pid status) :
    executeCommand w s input bg dp
      = .ret (returned status dp) (afterWait s command dp pid status) := by
  have hin2 : input.isEmpty = false := by cases input <;> simp_all
  unfold executeCommand afterWait returned recorded
  simp only [hin2, hsub]
  cases hr : (detectRedirect command).stderrFile with
  | none =>
    simp only [hfork]
    split_ifs <;> simp_all
  | some f =>
    simp only [hfork]
    split_ifs <;> simp_all

@[simp] theorem afterWait_vars (s : Shell) (command : Str) (dp : Bool) (pid : Nat)
    (status : WaitStatus) : (afterWait s command dp pid status).vars = s.vars := by
  unfold afterWait
  cases h : (detectRedirect command).stderrFile <;> simp only [h] <;> split_ifs <;> rfl

@[simp] theorem afterWait_lastStatus (s : Shell) (command : Str) (dp : Bool) (pid : Nat)
    (status : WaitStatus) :
    (afterWait s command dp pid status).lastStatus = recorded status := by
  unfold afterWait
  cases h : (detectRedirect command).stderrFile <;> simp only [h] <;> split_ifs <;> rfl

@[simp] theorem afterWait_status (s : Shell) (command : Str) (dp : Bool) (pid : Nat)
    (status : WaitStatus) : (afterWait s command dp pid status).status = s.status := by
  unfold afterWait
  cases h : (detectRedirect command).stderrFile <;> simp only [h] <;> split_ifs <;> rfl

@[simp] theorem afterWait_trace_of_none (s : Shell) (command : Str) (dp : Bool) (pid : Nat)
    (status : WaitStatus) (h : (detectRedirect command).stderrFile = none) :
    (afterWait s command dp pid status).trace = s.trace := by
  unfold afterWait
  simp only [h]
  split_ifs <;> rfl

theorem afterWait_childPid (s : Shell) (command : Str) (dp : Bool) (pid : Nat)
    (status : WaitStatus) :
    (afterWait s command dp pid status).childPid = if recorded status = 2 then pid else 0 := by
  unfold afterWait
  cases h : (detectRedirect command).stderrFile <;> simp only [h] <;> split_ifs <;> rfl

@[simp] theorem afterWait_spawned_length (s : Shell) (command : Str) (dp : Bool) (pid : Nat)
    (status : WaitStatus) :
    (afterWait s command dp pid status).spawned.length = s.spawned.length + 1 := by
  unfold afterWait
  cases h : (detectRedirect command).stderrFile <;> simp only [h] <;> split_ifs <;> simp

theorem afterWait_spawned (s : Shell) (command : Str) (dp : Bool) (pid : Nat)
    (status : WaitStatus) :
    (afterWait s command dp pid status).spawned.map (fun c => (c.command, c.devNull))
      = s.spawned.map (fun c => (c.command, c.devNull)) ++ [(command, dp)] := by
  unfold afterWait
  cases h : (detectRedirect command).stderrFile <;> simp only [h] <;> split_ifs <;> simp [childOf]

/-! ### The `find` family -/

theorem findFrom_head_skip (q : Char → Bool) (a t : Str) (i : Nat)
    (h : ∀ c ∈ a, q c = false) :
    findFrom (fun t => t.head?.any q) (a ++ t) i
      = findFrom (fun t => t.head?.any q) t (i + a.length) := by
  induction a generalizing i with
  | nil => simp
  | cons c cs ih =>
    have hc : q c = false := h c (List.mem_cons_self _ _)
    have hcs : ∀ d ∈ cs, q d = false := fun d hd => h d (List.mem_cons_of_mem _ hd)
    have e : i + (cs.length + 1) = i + 1 + cs.length := by omega
    simp only [List.cons_append, findFrom, List.head?_cons, Option.any_some, hc,
      Bool.false_eq_true, if_false, List.length_cons, e]
    exact ih (i + 1) hcs

theorem findFrom_head_hit (q : Char → Bool) (c : Char) (t : Str) (i : Nat) (h : q c = true) :
    findFrom (fun t => t.head?.any q) (c :: t) i = i := by
  simp [findFrom, h]

theorem findFrom_head_none (q : Char → Bool) (t : Str) (i : Nat)
    (h : ∀ c ∈ t, q c = false) :
    findFrom (fun t => t.head?.any q) t i = npos := by
  have := findFrom_head_skip q t [] i h
  simpa [findFrom] using this

theorem findChar_hit (pre a t : Str) (ch : Char) (h : ch ∉ a) :
    findChar (pre ++ (a ++ ch :: t)) ch pre.length = pre.length + a.length := by
  unfold findChar
  rw [List.drop_left, findFrom_head_skip _ _ _ _ (by
    intro c hc
    simp only [beq_eq_false_iff_ne, ne_eq]
    rintro rfl
    exact h hc), findFrom_head_hit _ _ _ _ (by simp)]

theorem findChar_none (pre rest : Str) (ch : Char) (h : ch ∉ rest) :
    findChar (pre ++ rest) ch pre.length = npos := by
  unfold findChar
  rw [List.drop_left, findFrom_head_none _ _ _ (by
    intro c hc
    simp only [beq_eq_false_iff_ne, ne_eq]
    rintro rfl
    exact h hc)]

theorem findChar_past_end (s : Str) (ch : Char) (pos : Nat) (h : s.length ≤ pos) :
    findChar s ch pos = npos := by
  unfold findChar
  rw [List.drop_eq_nil_of_le h]
  rfl

theorem contains_delims (c : Char) : " \t\n".toList.contains c = isDelim c := by
  simp only [isDelim, List.contains, List.elem, String.toList]
  cases c == ' ' <;> cases c == '\t' <;> cases c == '\n' <;> rfl

theorem sizeAdd_eq (a b : Nat) (h : a + b < 2 ^ 64) : sizeAdd a b = a + b := by
  unfold sizeAdd SIZE_MOD
  omega

theorem sizeSub_eq (a b : Nat) (hb : b ≤ a) (ha : a < 2 ^ 64) : sizeSub a b = a - b := by
  unfold sizeSub SIZE_MOD
  omega

theorem npos_eq : npos = 18446744073709551615 := by
  unfold npos
  norm_num

/-! ### Unfolding the specification along a span -/

theorem substSpecAux_plain (vars : Store) (a t : Str) (h : '$' ∉ a) :
    substSpecAux vars none (a ++ t) = a ++ substSpecAux vars none t := by
  induction a with
  | nil => rfl
  | cons c cs ih =>
    have hc : c ≠ '$' := fun e => h (e ▸ List.mem_cons_self _ _)
    have hcs : '$' ∉ cs := fun e => h (List.mem_cons_of_mem _ e)
    simp [substSpecAux, hc, ih hcs]

theorem substSpecAux_name (vars : Store) (n name t : Str) (h : ∀ c ∈ name, isDelim c = false) :
    substSpecAux vars (some n) (name ++ t) = substSpecAux vars (some (n ++ name)) t := by
  induction name generalizing n with
  | nil => simp
  | cons c cs ih =>
    have hc : isDelim c = false := h c (List.mem_cons_self _ _)
    have hcs : ∀ d ∈ cs, isDelim d = false := fun d hd => h d (List.mem_cons_of_mem _ hd)
    simp [substSpecAux, hc, ih _ hcs]

theorem isDelim_ne_dollar (d : Char) (h : isDelim d = true) : d ≠ '$' := by
  rintro rfl
  exact absurd h (by decide)

theorem substSpecAux_delim (vars : Store) (n : Str) (d : Char) (t : Str) (h : isDelim d = true) :
    substSpecAux vars (some n) (d :: t)
      = expandName vars n ++ substSpecAux vars none (d :: t) := by
  simp [substSpecAux, h, isDelim_ne_dollar d h]

/-- The specification on a text whose first `$` opens the span `$name`. -/
theorem substSpec_span (vars : Store) (a name tail : Str) (ha : '$' ∉ a)
    (hname : ∀ c ∈ name, isDelim c = false)
    (htail : tail = [] ∨ ∃ d t, tail = d :: t ∧ isDelim d = true) :
    substSpec vars (a ++ '$' :: (name ++ tail))
      = a ++ (expandName vars name ++ substSpec vars tail) := by
  unfold substSpec
  rw [substSpecAux_plain vars a _ ha]
  congr 1
  rw [show substSpecAux vars none ('$' :: (name ++ tail))
      = substSpecAux vars (some []) (name ++ tail) from by simp [substSpecAux]]
  rw [substSpecAux_name vars [] name tail hname, List.nil_append]
  rcases htail with rfl | ⟨d, t, rfl, hd⟩
  · simp [substSpecAux]
  · exact substSpecAux_delim vars name d t hd

theorem substSpec_plain (vars : Store) (a : Str) (ha : '$' ∉ a) : substSpec vars a = a := by
  have := substSpecAux_plain vars a [] ha
  simpa [substSpec, substSpecAux] using this

/-! ### One round of the loop -/

theorem findFirstOf_delim (pre name : Str) (d : Char) (t : Str)
    (hname : ∀ c ∈ name, isDelim c = false) (hd : isDelim d = true) :
    findFirstOf (pre ++ '$' :: (name ++ d :: t)) " \t\n".toList pre.length
      = pre.length + (name.length + 1) := by
  unfold findFirstOf
  rw [List.drop_left, ← List.cons_append, findFrom_head_skip _ _ _ _ (by
    intro c hc
    rw [contains_delims]
    rcases List.mem_cons.1 hc with rfl | h
    · decide
    · exact hname c h), findFrom_head_hit _ _ _ _ (by rw [contains_delims]; exact hd)]
  simp

theorem findFirstOf_end (pre name : Str) (hname : ∀ c ∈ name, isDelim c = false) :
    findFirstOf (pre ++ '$' :: name) " \t\n".toList pre.length = npos := by
  unfold findFirstOf
  rw [List.drop_left, findFrom_head_none _ _ _ (by
    intro c hc
    rw [contains_delims]
    rcases List.mem_cons.1 hc with rfl | h
    · decide
    · exact hname c h)]

theorem substLoop_done (vars : Store) (fuel : Nat) (pre rest : Str) (h : '$' ∉ rest) :
    substLoop vars (fuel + 1) (pre ++ rest) pre.length = .ok (pre ++ rest) := by
  simp [substLoop, findChar_none pre rest '$' h]

theorem substLoop_past_end (vars : Store) (fuel : Nat) (command : Str) (pos : Nat)
    (h : command.length ≤ pos) :
    substLoop vars (fuel + 1) command pos = .ok command := by
  simp [substLoop, findChar_past_end command '$' pos h]

/-- The loop only looks at its position through the search for the next `$`. -/
theorem substLoop_skip (vars : Store) (fuel : Nat) (pre a rest : Str) (ha : '$' ∉ a) :
    substLoop vars (fuel + 1) (pre ++ (a ++ '$' :: rest)) pre.length
      = substLoop vars (fuel + 1) ((pre ++ a) ++ '$' :: rest) (pre ++ a).length := by
  have h1 := findChar_hit pre a rest '$' ha
  have h2 := findChar_hit (pre ++ a) [] rest '$' (by simp)
  simp only [List.nil_append, List.length_nil, Nat.add_zero] at h2
  rw [substLoop, substLoop, h1, h2, List.append_assoc, List.length_append]

/-- One round of the loop at a span that is followed by a delimiter. -/
theorem substLoop_round_delim (vars : Store) (fuel : Nat) (pre name : Str) (d : Char)
    (t : Str) (hname : ∀ c ∈ name, isDelim c = false) (hd : isDelim d = true)
    (hlen : (pre ++ '$' :: (name ++ d :: t)).length < 2 ^ 64) :
    substLoop vars (fuel + 1) (pre ++ '$' :: (name ++ d :: t)) pre.length =
      match vars name with
      | some value =>
        substLoop vars fuel (pre ++ value ++ d :: t) (sizeAdd pre.length value.length)
      | none =>
        substLoop vars fuel (pre ++ '$' :: (name ++ d :: t)) (pre ++ '$' :: name).length := by
  have hpos : findChar (pre ++ '$' :: (name ++ d :: t)) '$' pre.length = pre.length := by
    have := findChar_hit pre [] (name ++ d :: t) '$' (by simp)
    simpa using this
  have hend := findFirstOf_delim pre name d t hname hd
  simp only [List.length_append, List.length_cons] at hlen
  have hne : pre.length ≠ npos := by
    rw [npos_eq]
    omega
  have h1 : sizeAdd pre.length 1 = pre.length + 1 := sizeAdd_eq _ _ (by omega)
  have h2 : sizeSub (pre.length + (name.length + 1)) pre.length = name.length + 1 := by
    rw [sizeSub_eq _ _ (by omega) (by omega)]
    omega
  have h3 : sizeSub (name.length + 1) 1 = name.length := by
    rw [sizeSub_eq _ _ (by omega) (by omega)]
    omega
  have hsub : substr (pre ++ '$' :: (name ++ d :: t)) (pre.length + 1) name.length
      = some name := by
    unfold substr
    rw [if_neg (by simp only [List.length_append, List.length_cons]; omega),
      show pre.length + 1 = (pre ++ ['$']).length from by simp,
      show pre ++ '$' :: (name ++ d :: t) = (pre ++ ['$']) ++ (name ++ d :: t) from by simp,
      List.drop_left, List.take_left]
  have hrep : ∀ value, replace (pre ++ '$' :: (name ++ d :: t)) pre.length
      (name.length + 1) value = some (pre ++ value ++ d :: t) := by
    intro value
    unfold replace
    rw [if_neg (by simp), List.take_left, List.drop_left,
      show '$' :: (name ++ d :: t) = ('$' :: name) ++ d :: t from by simp,
      show name.length + 1 = ('$' :: name).length from by simp, List.drop_left]
  rw [substLoop]
  simp only [hpos, hne, if_false, hend, h1, h2, h3, hsub, hrep]
  cases vars name with
  | none => simp
  | some value => simp

/-- One round of the loop at a span that reaches the end of the command. -/
theorem substLoop_round_end (vars : Store) (fuel : Nat) (pre name : Str)
    (hname : ∀ c ∈ name, isDelim c = false)
    (hlen : (pre ++ '$' :: name).length < 2 ^ 64) :
    substLoop vars (fuel + 1) (pre ++ '$' :: name) pre.length =
      match vars name with
      | some value => substLoop vars fuel (pre ++ value) (sizeAdd pre.length value.length)
      | none => substLoop vars fuel (pre ++ '$' :: name) npos := by
  have hpos : findChar (pre ++ '$' :: name) '$' pre.length = pre.length := by
    have := findChar_hit pre [] name '$' (by simp)
    simpa using this
  have hend := findFirstOf_end pre name hname
  simp only [List.length_append, List.length_cons] at hlen
  have hne : pre.length ≠ npos := by
    rw [npos_eq]
    omega
  have h1 : sizeAdd pre.length 1 = pre.length + 1 := sizeAdd_eq _ _ (by omega)
  have h2 : sizeSub npos pre.length = npos - pre.length := by
    rw [sizeSub_eq _ _ (by rw [npos_eq]; omega) (by rw [npos_eq]; omega)]
  have h3 : sizeSub (npos - pre.length) 1 = npos - pre.length - 1 := by
    rw [sizeSub_eq _ _ (by rw [npos_eq]; omega) (by rw [npos_eq]; omega)]
  have hsub : substr (pre ++ '$' :: name) (pre.length + 1) (npos - pre.length - 1)
      = some name := by
    unfold substr
    rw [if_neg (by simp only [List.length_append, List.length_cons]; omega),
      show pre.length + 1 = (pre ++ ['$']).length from by simp,
      show pre ++ '$' :: name = (pre ++ ['$']) ++ name from by simp,
      List.drop_left, List.take_of_length_le (by rw [npos_eq]; omega)]
  have hrep : ∀ value, replace (pre ++ '$' :: name) pre.length
      (npos - pre.length) value = some (pre ++ value) := by
    intro value
    unfold replace
    rw [if_neg (by simp), List.take_left, List.drop_left,
      List.drop_eq_nil_of_le (by rw [npos_eq, List.length_cons]; omega), List.append_nil]
  rw [substLoop]
  simp only [hpos, hne, if_false, hend, h1, h2, h3, hsub, hrep]

theorem exists_first_dollar (l : Str) (h : '$' ∈ l) :
    ∃ a b, l = a ++ '$' :: b ∧ '$' ∉ a := by
  induction l with
  | nil => simp at h
  | cons c cs ih =>
    by_cases hc : c = '$'
    · exact ⟨[], cs, by simp [hc], by simp⟩
    · have : '$' ∈ cs := by
        rcases List.mem_cons.1 h with e | e
        · exact absurd e.symm hc
        · exact e
      obtain ⟨a, b, hab, ha⟩ := ih this
      refine ⟨c :: a, b, by simp [hab], ?_⟩
      intro hm
      rcases List.mem_cons.1 hm with e | e
      · exact hc e.symm
      · exact ha e

theorem exists_name_split (b : Str) :
    ∃ name tail, b = name ++ tail ∧ (∀ c ∈ name, isDelim c = false) ∧
      (tail = [] ∨ ∃ d t, tail = d :: t ∧ isDelim d = true) := by
  induction b with
  | nil => exact ⟨[], [], rfl, by simp, Or.inl rfl⟩
  | cons c cs ih =>
    cases hc : isDelim c with
    | true => exact ⟨[], c :: cs, rfl, by simp, Or.inr ⟨c, cs, rfl, hc⟩⟩
    | false =>
      obtain ⟨name, tail, hb, hn, ht⟩ := ih
      refine ⟨c :: name, tail, by simp [hb], ?_, ht⟩
      intro x hx
      rcases List.mem_cons.1 hx with rfl | e
      · exact hc
      · exact hn x e

theorem expandName_some (vars : Store) (name value : Str) (h : vars name = some value) :
    expandName vars name = value := by
  simp [expandName, h]

theorem expandName_none (vars : Store) (name : Str) (h : vars name = none) :
    expandName vars name = '$' :: name := by
  simp [expandName, h]

/-- The loop, started at the end of an already processed part `pre`, leaves `pre` alone
and turns the rest of the command into what the specification makes of it. -/
theorem substLoop_refines (vars : Store) :
    ∀ (fuel : Nat) (pre rest : Str), rest.length < fuel →
      pre.length + rest.length + (substSpec vars rest).length < 2 ^ 64 →
      substLoop vars fuel (pre ++ rest) pre.length = .ok (pre ++ substSpec vars rest) := by
  intro fuel
  induction fuel with
  | zero => intro pre rest h; omega
  | succ f ih =>
    intro pre rest hfuel hbound
    by_cases hd : '$' ∈ rest
    · obtain ⟨a, b, rfl, ha⟩ := exists_first_dollar rest hd
      obtain ⟨name, tail, rfl, hname, htail⟩ := exists_name_split b
      rw [substLoop_skip vars f pre a _ ha]
      have hspec := substSpec_span vars a name tail ha hname htail
      rw [hspec] at hbound ⊢
      rcases htail with rfl | ⟨d, t, rfl, hdel⟩
      · simp only [List.length_append, List.length_cons, List.length_nil] at hbound hfuel
        rw [List.append_nil, substLoop_round_end vars f (pre ++ a) name hname (by
          simp only [List.length_append, List.length_cons]; omega)]
        cases hv : vars name with
        | some value =>
          rw [expandName_some vars name value hv] at hbound ⊢
          have e : sizeAdd (pre ++ a).length value.length = (pre ++ a ++ value).length := by
            rw [sizeAdd_eq _ _ (by simp only [List.length_append]; omega)]
            simp only [List.length_append]
          have := ih (pre ++ a ++ value) [] (by simp only [List.length_nil]; omega) (by
            simp only [List.length_append, List.length_nil]; omega)
          simp only [List.append_nil] at this
          simp only [e, this]
          simp [substSpec, substSpecAux]
        | none =>
          rw [expandName_none vars name hv]
          obtain ⟨f1, rfl⟩ : ∃ f1, f = f1 + 1 := ⟨f - 1, by omega⟩
          simp only []
          rw [substLoop_past_end vars f1 _ npos (by
            rw [npos_eq]; simp only [List.length_append, List.length_cons]; omega)]
          simp [substSpec, substSpecAux]
      · simp only [List.length_append, List.length_cons] at hbound hfuel
        rw [substLoop_round_delim vars f (pre ++ a) name d t hname hdel (by
          simp only [List.length_append, List.length_cons]; omega)]
        cases hv : vars name with
        | some value =>
          rw [expandName_some vars name value hv] at hbound ⊢
          have e : sizeAdd (pre ++ a).length value.length = (pre ++ a ++ value).length := by
            rw [sizeAdd_eq _ _ (by simp only [List.length_append]; omega)]
            simp only [List.length_append]
          have := ih (pre ++ a ++ value) (d :: t) (by simp only [List.length_cons]; omega) (by
            simp only [List.length_append, List.length_cons]; omega)
          simp only [e, this]
          simp
        | none =>
          rw [expandName_none vars name hv] at hbound ⊢
          simp only [List.length_cons] at hbound
          have := ih (pre ++ (a ++ '$' :: name)) (d :: t)
            (by simp only [List.length_cons]; omega) (by
            simp only [List.length_append, List.length_cons]; omega)
          simp only []
          have e : pre ++ a ++ '$' :: (name ++ d :: t) = pre ++ (a ++ '$' :: name) ++ d :: t := by
            simp
          have e2 : (pre ++ a ++ '$' :: name) = pre ++ (a ++ '$' :: name) := by simp
          rw [e, e2, this]
          simp
    · rw [substLoop_done vars f pre rest hd, substSpec_plain vars rest hd]

/-! ### Searching for a keyword -/

theorem findFrom_skip (p : Str → Bool) (a t : Str) (i : Nat)
    (h : ∀ k, k < a.length → p (a.drop k ++ t) = false) :
    findFrom p (a ++ t) i = findFrom p t (i + a.length) := by
  induction a generalizing i with
  | nil => simp
  | cons c cs ih =>
    have h0 : p (c :: cs ++ t) = false := by simpa using h 0 (by simp)
    have hcs : ∀ k, k < cs.length → p (cs.drop k ++ t) = false := by
      intro k hk
      simpa using h (k + 1) (by simpa using hk)
    have e : i + (cs.length + 1) = i + 1 + cs.length := by omega
    rw [List.cons_append, findFrom, ← List.cons_append, h0]
    simp only [Bool.false_eq_true, if_false, List.length_cons, e]
    exact ih (i + 1) hcs

theorem findFrom_none (p : Str → Bool) (t : Str) (i : Nat)
    (h : ∀ k, k < t.length → p (t.drop k) = false) : findFrom p t i = npos := by
  have := findFrom_skip p t [] i (by simpa using h)
  simpa [findFrom] using this

/-- A pattern that occurs nowhere in the text is not found. -/
theorem findStr_absent (s pat : Str) (h : ¬ pat <:+: s) : findStr s pat 0 = npos := by
  unfold findStr
  rw [List.drop_zero]
  apply findFrom_none
  intro k _
  rw [Bool.eq_false_iff]
  intro hp
  rw [List.isPrefixOf_iff_prefix] at hp
  exact h (List.IsInfix.trans hp.isInfix (List.drop_suffix k s).isInfix)

/-- The first occurrence of a pattern is found. -/
theorem findStr_first (pre pat post : Str) (hpat : pat ≠ [])
    (hno : ¬ pat <:+: pre ++ pat.dropLast) :
    findStr (pre ++ (pat ++ post)) pat 0 = pre.length := by
  unfold findStr
  rw [List.drop_zero, findFrom_skip]
  · obtain ⟨c, cs, rfl⟩ := List.exists_cons_of_ne_nil hpat
    rw [List.cons_append, findFrom, ← List.cons_append, if_pos]
    · simp
    · rw [List.isPrefixOf_iff_prefix]
      exact List.prefix_append _ _
  · intro k hk
    rw [Bool.eq_false_iff]
    intro hp
    rw [List.isPrefixOf_iff_prefix] at hp
    apply hno
    have h1 : pre.drop k ++ pat.dropLast <+: pre.drop k ++ (pat ++ post) := by
      rw [List.prefix_append_right_inj]
      exact List.IsPrefix.trans (List.dropLast_prefix pat) (List.prefix_append _ _)
    have h2 : pat.length ≤ (pre.drop k ++ pat.dropLast).length := by
      have : 0 < pat.length := List.length_pos.2 hpat
      simp only [List.length_append, List.length_drop, List.length_dropLast]
      omega
    have h3 : pat <+: pre.drop k ++ pat.dropLast := List.prefix_of_prefix_length_le hp h1 h2
    refine List.IsInfix.trans h3.isInfix ?_
    refine ⟨pre.take k, [], ?_⟩
    rw [List.append_nil, ← List.append_assoc, List.take_append_drop]

/-- An occurrence of a pattern cannot straddle a character the pattern does not contain. -/
theorem infix_split (pat x y : Str) (c : Char) (hc : c ∉ pat) (h : pat <:+: x ++ c :: y) :
    pat <:+: x ∨ pat <:+: y := by
  obtain ⟨s, t, e⟩ := h
  rw [List.append_assoc, List.append_eq_append_iff] at e
  rcases e with ⟨a1, hx, e1⟩ | ⟨c1, hs, e1⟩
  · rw [List.append_eq_append_iff] at e1
    rcases e1 with ⟨b1, ha, _⟩ | ⟨b1, hp, e2⟩
    · left
      rw [hx, ha]
      exact ⟨s, b1, by simp⟩
    · cases b1 with
      | nil =>
        left
        simp only [List.append_nil] at hp
        rw [hx, hp]
        exact ⟨s, [], by simp⟩
      | cons b bs =>
        exfalso
        simp only [List.cons_append, List.cons.injEq] at e2
        apply hc
        rw [hp, e2.1]
        simp
  · cases c1 with
    | nil =>
      simp only [List.nil_append] at e1
      cases pat with
      | nil => left; exact List.nil_infix
      | cons p ps =>
        exfalso
        simp only [List.cons_append, List.cons.injEq] at e1
        apply hc
        rw [e1.1]
        simp
    | cons b bs =>
      right
      simp only [List.cons_append, List.cons.injEq] at e1
      rw [e1.2]
      exact ⟨bs, t, by simp⟩

/-! ### A well-formed `if` line -/

theorem substr_mid (pre mid post : Str) :
    substr (pre ++ (mid ++ post)) pre.length mid.length = some mid := by
  unfold substr
  rw [if_neg (by simp), List.drop_left, List.take_left]

theorem afterWait_ran (s : Shell) (command : Str) (dp : Bool) (pid : Nat)
    (status : WaitStatus) :
    (afterWait s command dp pid status).ran = s.ran ++ [(command, dp)] :=
  afterWait_spawned s command dp pid status

theorem returned_eq_zero (st : WaitStatus) : returned st true = 0 ↔ recorded st = 0 := by
  unfold returned
  split_ifs with h1 h2 <;> simp_all

theorem ifLine_then (cmdA cmdB cmdC : Str) (hA : ¬ "then".toList <:+: cmdA) :
    findStr (ifLine cmdA cmdB cmdC) "then".toList 0 = cmdA.length + 4 := by
  have e : ifLine cmdA cmdB cmdC = ("if ".toList ++ cmdA ++ [' ']) ++
      ("then".toList ++ (' ' :: cmdB ++ " else ".toList ++ cmdC ++ " fi".toList)) := by
    simp [ifLine]
  rw [e, findStr_first _ _ _ (by decide)]
  · simp
  · intro h
    have h' : "then".toList <:+: "if".toList ++ ' ' :: (cmdA ++ ' ' :: "the".toList) := by
      simpa using h
    rcases infix_split _ _ _ ' ' (by decide) h' with h1 | h1
    · exact absurd h1 (by decide)
    · rcases infix_split _ _ _ ' ' (by decide) h1 with h2 | h2
      · exact hA h2
      · exact absurd h2 (by decide)

theorem ifLine_else (cmdA cmdB cmdC : Str) (hA : ¬ "else".toList <:+: cmdA)
    (hB : ¬ "else".toList <:+: cmdB) :
    findStr (ifLine cmdA cmdB cmdC) "else".toList 0 = cmdA.length + cmdB.length + 10 := by
  have e : ifLine cmdA cmdB cmdC = ("if ".toList ++ cmdA ++ " then ".toList ++ cmdB ++ [' ']) ++
      ("else".toList ++ (' ' :: cmdC ++ " fi".toList)) := by
    simp [ifLine]
  rw [e, findStr_first _ _ _ (by decide)]
  · simp; omega
  · intro h
    have h' : "else".toList <:+: "if".toList ++ ' ' :: (cmdA ++ ' ' :: ("then".toList ++
        ' ' :: (cmdB ++ ' ' :: "els".toList))) := by
      simpa using h
    rcases infix_split _ _ _ ' ' (by decide) h' with h1 | h1
    · exact absurd h1 (by decide)
    · rcases infix_split _ _ _ ' ' (by decide) h1 with h2 | h2
      · exact hA h2
      · rcases infix_split _ _ _ ' ' (by decide) h2 with h3 | h3
        · exact absurd h3 (by decide)
        · rcases infix_split _ _ _ ' ' (by decide) h3 with h4 | h4
          · exact hB h4
          · exact absurd h4 (by decide)

theorem ifLine_fi (cmdA cmdB cmdC : Str) (hA : ¬ "fi".toList <:+: cmdA)
    (hB : ¬ "fi".toList <:+: cmdB) (hC : ¬ "fi".toList <:+: cmdC) :
    findStr (ifLine cmdA cmdB cmdC) "fi".toList 0
      = cmdA.length + cmdB.length + cmdC.length + 16 := by
  have e : ifLine cmdA cmdB cmdC =
      ("if ".toList ++ cmdA ++ " then ".toList ++ cmdB ++ " else ".toList ++ cmdC ++ [' ']) ++
      ("fi".toList ++ []) := by
    simp [ifLine]
  rw [e, findStr_first _ _ _ (by decide)]
  · simp; omega
  · intro h
    have h' : "fi".toList <:+: "if".toList ++ ' ' :: (cmdA ++ ' ' :: ("then".toList ++
        ' ' :: (cmdB ++ ' ' :: ("else".toList ++ ' ' :: (cmdC ++ ' ' :: "f".toList))))) := by
      simpa using h
    rcases infix_split _ _ _ ' ' (by decide) h' with h1 | h1
    · exact absurd h1 (by decide)
    · rcases infix_split _ _ _ ' ' (by decide) h1 with h2 | h2
      · exact hA h2
      · rcases infix_split _ _ _ ' ' (by decide) h2 with h3 | h3
        · exact absurd h3 (by decide)
        · rcases infix_split _ _ _ ' ' (by decide) h3 with h4 | h4
          · exact hB h4
          · rcases infix_split _ _ _ ' ' (by decide) h4 with h5 | h5
            · exact absurd h5 (by decide)
            · rcases infix_split _ _ _ ' ' (by decide) h5 with h6 | h6
              · exact hC h6
              · exact absurd h6 (by decide)

/-! ### Commands without bound names -/

theorem noBoundName_at (vars : Store) (a b : Str) (h : NoBoundName vars (a ++ '$' :: b)) :
    vars (nameAfter b) = none ∧ NoBoundName vars b := by
  induction a with
  | nil => exact ⟨h.1 rfl, h.2⟩
  | cons c cs ih => exact ih h.2

theorem nameAfter_split (name tail : Str) (hname : ∀ c ∈ name, isDelim c = false)
    (htail : tail = [] ∨ ∃ d t, tail = d :: t ∧ isDelim d = true) :
    nameAfter (name ++ tail) = name := by
  unfold nameAfter
  induction name with
  | nil =>
    rcases htail with rfl | ⟨d, t, rfl, hd⟩
    · rfl
    · simp [List.takeWhile, hd]
  | cons c cs ih =>
    have hc : isDelim c = false := hname c (List.mem_cons_self _ _)
    have hcs : ∀ d ∈ cs, isDelim d = false := fun d hd => hname d (List.mem_cons_of_mem _ hd)
    simp [List.takeWhile, hc, ih hcs]

theorem noBoundName_tail (vars : Store) (name tail : Str)
    (hname : ∀ c ∈ name, isDelim c = false) (h : NoBoundName vars (name ++ tail)) :
    NoBoundName vars tail := by
  induction name with
  | nil => exact h
  | cons c cs ih =>
    exact ih (fun d hd => hname d (List.mem_cons_of_mem _ hd)) h.2

/-- When no span names a bound variable the loop returns the command as it is. -/
theorem substLoop_unbound (vars : Store) :
    ∀ (fuel : Nat) (pre rest : Str), rest.length < fuel →
      (pre ++ rest).length < 2 ^ 64 → NoBoundName vars rest →
      substLoop vars fuel (pre ++ rest) pre.length = .ok (pre ++ rest) := by
  intro fuel
  induction fuel with
  | zero => intro pre rest h; omega
  | succ f ih =>
    intro pre rest hfuel hbound hnb
    by_cases hd : '$' ∈ rest
    · obtain ⟨a, b, rfl, ha⟩ := exists_first_dollar rest hd
      obtain ⟨name, tail, rfl, hname, htail⟩ := exists_name_split b
      obtain ⟨hv0, hnb1⟩ := noBoundName_at vars a (name ++ tail) hnb
      have hv : vars name = none := by
        rwa [nameAfter_split name tail hname htail] at hv0
      have hnb2 : NoBoundName vars tail := noBoundName_tail vars name tail hname hnb1
      rw [substLoop_skip vars f pre a _ ha]
      rcases htail with rfl | ⟨d, t, rfl, hdel⟩
      · simp only [List.length_append, List.length_cons, List.length_nil] at hbound hfuel
        rw [List.append_nil, substLoop_round_end vars f (pre ++ a) name hname (by
          simp only [List.length_append, List.length_cons]; omega)]
        obtain ⟨f1, rfl⟩ : ∃ f1, f = f1 + 1 := ⟨f - 1, by omega⟩
        simp only [hv]
        rw [substLoop_past_end vars f1 _ npos (by
          rw [npos_eq]; simp only [List.length_append, List.length_cons]; omega)]
        simp
      · simp only [List.length_append, List.length_cons] at hbound hfuel
        rw [substLoop_round_delim vars f (pre ++ a) name d t hname hdel (by
          simp only [List.length_append, List.length_cons]; omega)]
        simp only [hv]
        have := ih (pre ++ (a ++ '$' :: name)) (d :: t)
          (by simp only [List.length_cons]; omega)
          (by simp only [List.length_append, List.length_cons]; omega) hnb2
        have e : pre ++ a ++ '$' :: (name ++ d :: t) = pre ++ (a ++ '$' :: name) ++ d :: t := by
          simp
        have e2 : (pre ++ a ++ '$' :: name) = pre ++ (a ++ '$' :: name) := by simp
        rw [e, e2, this]
        simp
    · exact substLoop_done vars f pre rest hd

/-- The three texts `ifCaseHandling` cuts out of a well-formed line. -/
theorem ifLine_parts (cmdA cmdB cmdC : Str) (hlen : (ifLine cmdA cmdB cmdC).length < 2 ^ 64) :
    substr (ifLine cmdA cmdB cmdC) 2 (sizeSub (cmdA.length + 4) 2) = some (' ' :: (cmdA ++ [' ']))
    ∧ substr (ifLine cmdA cmdB cmdC) (sizeAdd (cmdA.length + 4) 4)
        (sizeSub (sizeSub (cmdA.length + cmdB.length + 10) (cmdA.length + 4)) 4)
        = some (' ' :: (cmdB ++ [' ']))
    ∧ substr (ifLine cmdA cmdB cmdC) (sizeAdd (cmdA.length + cmdB.length + 10) 4)
        (sizeSub (sizeSub (cmdA.length + cmdB.length + cmdC.length + 16)
          (cmdA.length + cmdB.length + 10)) 4)
        = some (' ' :: (cmdC ++ [' '])) := by
  have hl : cmdA.length + cmdB.length + cmdC.length + 18 < 2 ^ 64 := by
    have : (ifLine cmdA cmdB cmdC).length = cmdA.length + cmdB.length + cmdC.length + 18 := by
      simp [ifLine]; omega
    omega
  refine ⟨?_, ?_, ?_⟩
  · have e1 : sizeSub (cmdA.length + 4) 2 = (' ' :: (cmdA ++ [' '])).length := by
      rw [sizeSub_eq _ _ (by omega) (by omega)]; simp
    have e2 : ifLine cmdA cmdB cmdC = "if".toList ++ ((' ' :: (cmdA ++ [' '])) ++
        ("then ".toList ++ cmdB ++ " else ".toList ++ cmdC ++ " fi".toList)) := by
      simp [ifLine]
    rw [e1, e2]
    exact substr_mid "if".toList _ _
  · have e0 : sizeAdd (cmdA.length + 4) 4 = ("if ".toList ++ cmdA ++ " then".toList).length := by
      rw [sizeAdd_eq _ _ (by omega)]; simp
    have e1 : sizeSub (sizeSub (cmdA.length + cmdB.length + 10) (cmdA.length + 4)) 4
        = (' ' :: (cmdB ++ [' '])).length := by
      rw [sizeSub_eq (cmdA.length + cmdB.length + 10) (cmdA.length + 4) (by omega) (by omega),
        sizeSub_eq _ _ (by omega) (by omega)]
      simp; omega
    have e2 : ifLine cmdA cmdB cmdC = ("if ".toList ++ cmdA ++ " then".toList) ++
        ((' ' :: (cmdB ++ [' '])) ++ ("else ".toList ++ cmdC ++ " fi".toList)) := by
      simp [ifLine]
    rw [e0, e1, e2]
    exact substr_mid _ _ _
  · have e0 : sizeAdd (cmdA.length + cmdB.length + 10) 4
        = ("if ".toList ++ cmdA ++ " then ".toList ++ cmdB ++ " else".toList).length := by
      rw [sizeAdd_eq _ _ (by omega)]; simp; omega
    have e1 : sizeSub (sizeSub (cmdA.length + cmdB.length + cmdC.length + 16)
        (cmdA.length + cmdB.length + 10)) 4 = (' ' :: (cmdC ++ [' '])).length := by
      rw [sizeSub_eq (cmdA.length + cmdB.length + cmdC.length + 16)
          (cmdA.length + cmdB.length + 10) (by omega) (by omega),
        sizeSub_eq _ _ (by omega) (by omega)]
      simp; omega
    have e2 : ifLine cmdA cmdB cmdC
        = ("if ".toList ++ cmdA ++ " then ".toList ++ cmdB ++ " else".toList) ++
        ((' ' :: (cmdC ++ [' '])) ++ "fi".toList) := by
      simp [ifLine]
    rw [e0, e1, e2]
    exact substr_mid _ _ _

/-! ### Malformed `if` lines -/

theorem findFrom_result (p : Str → Bool) (t : Str) (i : Nat) :
    findFrom p t i = npos ∨ ∃ k, k < t.length ∧ findFrom p t i = i + k ∧ p (t.drop k) = true := by
  induction t generalizing i with
  | nil => left; rfl
  | cons c cs ih =>
    by_cases hp : p (c :: cs) = true
    · right
      exact ⟨0, by simp, by simp [findFrom, hp], by simpa using hp⟩
    · rcases ih (i + 1) with h | ⟨k, hk, hf, hpk⟩
      · left
        simp [findFrom, hp, h]
      · right
        refine ⟨k + 1, by simpa using hk, ?_, by simpa using hpk⟩
        rw [findFrom, if_neg hp, hf]
        omega

/-- A keyword that is found lies inside the line. -/
theorem findStr_bound (s pat : Str) (h : findStr s pat 0 ≠ npos) :
    findStr s pat 0 + pat.length ≤ s.length := by
  unfold findStr at h ⊢
  rw [List.drop_zero] at h ⊢
  rcases findFrom_result (fun t => pat.isPrefixOf t) s 0 with h1 | ⟨k, hk, hf, hp⟩
  · exact absurd h1 h
  · rw [hf]
    rw [List.isPrefixOf_iff_prefix] at hp
    have := hp.length_le
    rw [List.length_drop] at this
    omega

theorem substr_some (s : Str) (pos n : Nat) (h : pos ≤ s.length) :
    substr s pos n = some ((s.drop pos).take n) := by
  unfold substr
  rw [if_neg (by omega)]

/-- Either `ifCaseHandling` reports a parse error, or it found the three keywords and
cut out three non-empty parts. -/
theorem ifCaseHandling_error_or_parts (w : World) (s : Shell) (line : Str)
    (hlen : line.length < 2 ^ 64) :
    (∃ msg, ifCaseHandling w s line = .ret (-1) (s.cerr msg)) ∨
    (findStr line "then".toList 0 ≠ npos ∧ findStr line "else".toList 0 ≠ npos
      ∧ findStr line "fi".toList 0 ≠ npos
      ∧ (line.drop 2).take (sizeSub (findStr line "then".toList 0) 2) ≠ []
      ∧ (line.drop (findStr line "then".toList 0 + 4)).take
          (sizeSub (sizeSub (findStr line "else".toList 0) (findStr line "then".toList 0)) 4)
          ≠ []
      ∧ (line.drop (findStr line "else".toList 0 + 4)).take
          (sizeSub (sizeSub (findStr line "fi".toList 0) (findStr line "else".toList 0)) 4)
          ≠ []) := by
  unfold ifCaseHandling
  by_cases ht : findStr line "then".toList 0 = npos
  · exact Or.inl ⟨_, by simp only [ht, if_true]; rfl⟩
  have hbt : findStr line "then".toList 0 + 4 ≤ line.length :=
    findStr_bound line "then".toList ht
  simp only [ht, if_false]
  rw [substr_some line 2 _ (by omega)]
  simp only []
  by_cases hc : ((line.drop 2).take (sizeSub (findStr line "then".toList 0) 2)).isEmpty = true
  · exact Or.inl ⟨_, by simp only [hc, if_true]; rfl⟩
  simp only [hc, Bool.false_eq_true, if_false]
  by_cases he : findStr line "else".toList 0 = npos
  · exact Or.inl ⟨_, by simp only [he, if_true]; rfl⟩
  have hbe : findStr line "else".toList 0 + 4 ≤ line.length :=
    findStr_bound line "else".toList he
  simp only [he, if_false]
  rw [sizeAdd_eq _ 4 (by omega), substr_some line _ _ (by omega)]
  simp only []
  by_cases hf : findStr line "fi".toList 0 = npos
  · exact Or.inl ⟨_, by simp only [hf, if_true]; rfl⟩
  simp only [hf, if_false]
  rw [sizeAdd_eq _ 4 (by omega), substr_some line _ _ (by omega)]
  simp only []
  by_cases hparts : ((line.drop (findStr line "then".toList 0 + 4)).take
      (sizeSub (sizeSub (findStr line "else".toList 0) (findStr line "then".toList 0)) 4)).isEmpty
        = true ∨
      ((line.drop (findStr line "else".toList 0 + 4)).take
      (sizeSub (sizeSub (findStr line "fi".toList 0) (findStr line "else".toList 0)) 4)).isEmpty
        = true
  · exact Or.inl ⟨_, by simp only [hparts, if_true]; rfl⟩
  right
  rw [not_or] at hparts
  refine ⟨ht, he, hf, ?_, ?_, ?_⟩
  · simpa [List.isEmpty_iff] using hc
  · simpa [List.isEmpty_iff] using hparts.1
  · simpa [List.isEmpty_iff] using hparts.2

theorem take_zero_of_sub (l : Str) (a : Nat) (h : a + 4 < 2 ^ 64) :
    l.take (sizeSub (sizeSub (a + 4) a) 4) = [] := by
  rw [sizeSub_eq (a + 4) a (by omega) h, sizeSub_eq _ _ (by omega) (by omega)]
  simp

/-! ### `or` chains -/

/-- When every operand up to the end fails, all of them are run and the result is 1. -/
theorem orCaseHandling_all_fail (w : World) :
    ∀ (ops subs : List Str) (s : Shell) (pids : Nat → Nat) (sts : Nat → WaitStatus),
      (∀ op ∈ ops, op ≠ []) →
      List.Forall₂ (fun op c => substitute s.vars op = .ok c) ops subs →
      (∀ i, i < ops.length → w.fork (s.spawned.length + i) = .parent (pids i) (sts i)) →
      (∀ i, i < ops.length → recorded (sts i) ≠ 0) →
      ∃ s1, orCaseHandling w s ops = .ret 1 s1 ∧ s1.ran = s.ran ++ subs.map (fun c => (c, true))
  | [], subs, s, _, _, _, hsub, _, _ => by
    cases hsub
    exact ⟨s, rfl, by simp⟩
  | op :: ops, subs, s, pids, sts, hne, hsub, hfork, hfail => by
    cases hsub with
    | cons h1 hrest =>
      rename_i c cs
      have hx := executeCommand_eq w s op true true c (pids 0) (sts 0)
        (hne op (List.mem_cons_self _ _)) h1 (by simpa using hfork 0 (by simp))
      have hr : ¬ returned (sts 0) true = 0 := fun h =>
        hfail 0 (by simp) ((returned_eq_zero _).1 h)
      rw [orCaseHandling, hx]
      simp only [hr, if_false]
      obtain ⟨s1, he, hran⟩ := orCaseHandling_all_fail w ops cs
        { afterWait s c true (pids 0) (sts 0) with status := returned (sts 0) true }
        (fun i => pids (i + 1)) (fun i => sts (i + 1))
        (fun o ho => hne o (List.mem_cons_of_mem _ ho))
        (by simpa using hrest)
        (by
          intro i hi
          have := hfork (i + 1) (by simpa using hi)
          simpa [Nat.add_assoc, Nat.add_comm 1 i] using this)
        (fun i hi => hfail (i + 1) (by simpa using hi))
      refine ⟨s1, he, ?_⟩
      rw [hran]
      simp [Shell.ran, afterWait_spawned]

/-- When operand `k` is the first to exit with status 0, the operands up to `k` are run
and the result is 0. -/
theorem orCaseHandling_first_success (w : World) :
    ∀ (k : Nat) (ops subs : List Str) (s : Shell) (pids : Nat → Nat) (sts : Nat → WaitStatus),
      (∀ op ∈ ops, op ≠ []) →
      List.Forall₂ (fun op c => substitute s.vars op = .ok c) ops subs →
      (∀ i, i < ops.length → w.fork (s.spawned.length + i) = .parent (pids i) (sts i)) →
      k < ops.length → recorded (sts k) = 0 → (∀ i, i < k → recorded (sts i) ≠ 0) →
      ∃ s1, orCaseHandling w s ops = .ret 0 s1
        ∧ s1.ran = s.ran ++ (subs.take (k + 1)).map (fun c => (c, true))
  | _, [], _, _, _, _, _, _, _, hk, _, _ => by simp at hk
  | k, op :: ops, subs, s, pids, sts, hne, hsub, hfork, hk, hzero, hfail => by
    cases hsub with
    | cons h1 hrest =>
      rename_i c cs
      have hx := executeCommand_eq w s op true true c (pids 0) (sts 0)
        (hne op (List.mem_cons_self _ _)) h1 (by simpa using hfork 0 (by simp))
      rw [orCaseHandling, hx]
      cases k with
      | zero =>
        have hr : returned (sts 0) true = 0 := (returned_eq_zero _).2 hzero
        simp only [hr, if_true]
        exact ⟨_, rfl, by simp [Shell.ran, afterWait_spawned]⟩
      | succ k =>
        have hr : ¬ returned (sts 0) true = 0 := fun h =>
          hfail 0 (by simp) ((returned_eq_zero _).1 h)
        simp only [hr, if_false]
        obtain ⟨s1, he, hran⟩ := orCaseHandling_first_success w k ops cs
          { afterWait s c true (pids 0) (sts 0) with status := returned (sts 0) true }
          (fun i => pids (i + 1)) (fun i => sts (i + 1))
          (fun o ho => hne o (List.mem_cons_of_mem _ ho))
          (by simpa using hrest)
          (by
            intro i hi
            have := hfork (i + 1) (by simpa using hi)
            simpa [Nat.add_assoc, Nat.add_comm 1 i] using this)
          (by simpa using hk) hzero (fun i hi => hfail (i + 1) (by omega))
        refine ⟨s1, he, ?_⟩
        rw [hran]
        simp [Shell.ran, afterWait_spawned]

/-! ### Calls that return -/

theorem afterWait_history (s : Shell) (command : Str) (dp : Bool) (pid : Nat)
    (status : WaitStatus) : (afterWait s command dp pid status).history = s.history := by
  unfold afterWait
  cases h : (detectRedirect command).stderrFile <;> simp only [h] <;> split_ifs <;> rfl

theorem afterWait_historyIndex (s : Shell) (command : Str) (dp : Bool) (pid : Nat)
    (status : WaitStatus) :
    (afterWait s command dp pid status).historyIndex = s.historyIndex := by
  unfold afterWait
  cases h : (detectRedirect command).stderrFile <;> simp only [h] <;> split_ifs <;> rfl

/-- Substitution completes on a command that fits. -/
theorem substitute_completes (vars : Store) (cmd : Str)
    (h : cmd.length + (substSpec vars cmd).length < 2 ^ 64) :
    ∃ c, substitute vars cmd = .ok c := by
  have := substLoop_refines vars (cmd.length + 1) [] cmd (by omega) (by simpa using h)
  exact ⟨_, by simpa [substitute] using this⟩

theorem fork_parent (w : World) (hfork : ∀ n, w.fork n ≠ .failed) (n : Nat) :
    ∃ pid st, w.fork n = .parent pid st := by
  cases h : w.fork n with
  | failed => exact absurd h (hfork n)
  | parent pid st => exact ⟨pid, st, rfl⟩

/-- `executeCommand` returns when substitution completes and the fork succeeds; it
leaves the history, the store and the `status` member alone, and runs at most one
command. -/
theorem executeCommand_returns (w : World) (s : Shell) (input : Str) (bg dp : Bool)
    (hsub : ∃ c, substitute s.vars input = .ok c) (hfork : ∀ n, w.fork n ≠ .failed) :
    ∃ v s1, executeCommand w s input bg dp = .ret v s1 ∧ s1.history = s.history
      ∧ s1.historyIndex = s.historyIndex ∧ s1.vars = s.vars := by
  by_cases hin : input = []
  · subst hin
    exact ⟨0, s, by simp [executeCommand], rfl, rfl, rfl⟩
  · obtain ⟨c, hc⟩ := hsub
    obtain ⟨pid, st, hf⟩ := fork_parent w hfork s.spawned.length
    exact ⟨_, _, executeCommand_eq w s input bg dp c pid st hin hc hf,
      afterWait_history _ _ _ _ _, afterWait_historyIndex _ _ _ _ _, afterWait_vars _ _ _ _ _⟩

theorem orCaseHandling_returns (w : World) (hfork : ∀ n, w.fork n ≠ .failed) :
    ∀ (ops : List Str) (s : Shell), (∀ op ∈ ops, ∃ c, substitute s.vars op = .ok c) →
      ∃ v s1, orCaseHandling w s ops = .ret v s1 ∧ s1.history = s.history
        ∧ s1.historyIndex = s.historyIndex
  | [], s, _ => ⟨1, s, rfl, rfl, rfl⟩
  | op :: ops, s, hsub => by
    obtain ⟨v, s1, he, hh, hi, hv⟩ := executeCommand_returns w s op true true
      (hsub op (List.mem_cons_self _ _)) hfork
    rw [orCaseHandling, he]
    simp only []
    by_cases hz : v = 0
    · simp only [hz, if_true]
      exact ⟨_, _, rfl, hh, hi⟩
    · simp only [hz, if_false]
      obtain ⟨v2, s2, he2, hh2, hi2⟩ := orCaseHandling_returns w hfork ops
        { s1 with status := v } (fun o ho => by
          have := hsub o (List.mem_cons_of_mem _ ho)
          simpa [hv] using this)
      exact ⟨v2, s2, he2, by simpa [hh] using hh2, by simpa [hi] using hi2⟩

theorem ifRun_returns (w : World) (hfork : ∀ n, w.fork n ≠ .failed) (s : Shell)
    (c t e : Str) (hc : ∃ x, substitute s.vars c = .ok x) (ht : ∃ x, substitute s.vars t = .ok x)
    (he : ∃ x, substitute s.vars e = .ok x) :
    ∃ v s1, ifRun w s c t e = .ret v s1 ∧ s1.history = s.history
      ∧ s1.historyIndex = s.historyIndex := by
  obtain ⟨v, s1, h1, hh, hi, hv⟩ := executeCommand_returns w s c true true hc hfork
  unfold ifRun
  rw [h1]
  simp only []
  by_cases hz : v = 0
  · simp only [hz, if_true]
    obtain ⟨v2, s2, h2, hh2, hi2, _⟩ := executeCommand_returns w { s1 with status := 0 } t
      false false (by simpa [hv] using ht) hfork
    rw [h2]
    exact ⟨_, _, rfl, by simpa [hh] using hh2, by simpa [hi] using hi2⟩
  · simp only [hz, if_false]
    obtain ⟨v2, s2, h2, hh2, hi2, _⟩ := executeCommand_returns w { s1 with status := v } e
      false false (by simpa [hv] using he) hfork
    rw [h2]
    exact ⟨_, _, rfl, by simpa [hh] using hh2, by simpa [hi] using hi2⟩

theorem ifCaseHandling_eq_ifRun (w : World) (s : Shell) (line c t e : Str)
    (ht : findStr line "then".toList 0 ≠ npos) (he : findStr line "else".toList 0 ≠ npos)
    (hf : findStr line "fi".toList 0 ≠ npos)
    (h1 : substr line 2 (sizeSub (findStr line "then".toList 0) 2) = some c)
    (h2 : substr line (sizeAdd (findStr line "then".toList 0) 4)
        (sizeSub (sizeSub (findStr line "else".toList 0) (findStr line "then".toList 0)) 4)
        = some t)
    (h3 : substr line (sizeAdd (findStr line "else".toList 0) 4)
        (sizeSub (sizeSub (findStr line "fi".toList 0) (findStr line "else".toList 0)) 4)
        = some e)
    (hc : c ≠ []) (htp : t ≠ []) (hep : e ≠ []) :
    ifCaseHandling w s line = ifRun w s c t e := by
  have hc1 : c.isEmpty = false := by cases c <;> simp_all
  have ht1 : t.isEmpty = false := by cases t <;> simp_all
  have he1 : e.isEmpty = false := by cases e <;> simp_all
  unfold ifCaseHandling ifRun
  simp only [ht, he, hf, if_false, h1, h2, h3, hc1, ht1, he1, Bool.false_eq_true, or_self]

/-- Either `ifCaseHandling` reports a parse error and does nothing else, or each of its
three extractions starts inside the line and it runs the three non-empty texts. -/
theorem ifCaseHandling_cases (w : World) (s : Shell) (line : Str)
    (hlen : line.length < 2 ^ 64) :
    (∃ msg, ifCaseHandling w s line = .ret (-1) (s.cerr msg)) ∨
    (∃ c t e : Str, (c ≠ [] ∧ t ≠ [] ∧ e ≠ []) ∧
      substr line 2 (sizeSub (findStr line "then".toList 0) 2) = some c ∧
      substr line (sizeAdd (findStr line "then".toList 0) 4)
        (sizeSub (sizeSub (findStr line "else".toList 0) (findStr line "then".toList 0)) 4)
        = some t ∧
      substr line (sizeAdd (findStr line "else".toList 0) 4)
        (sizeSub (sizeSub (findStr line "fi".toList 0) (findStr line "else".toList 0)) 4)
        = some e ∧
      ifCaseHandling w s line = ifRun w s c t e) := by
  rcases ifCaseHandling_error_or_parts w s line hlen with hm | ⟨ht, he, hf, hc, htp, hep⟩
  · exact Or.inl hm
  right
  have hbt : findStr line "then".toList 0 + 4 ≤ line.length :=
    findStr_bound line "then".toList ht
  have hbe : findStr line "else".toList 0 + 4 ≤ line.length :=
    findStr_bound line "else".toList he
  have e1 := substr_some line 2 (sizeSub (findStr line "then".toList 0) 2) (by omega)
  have e2 := substr_some line (findStr line "then".toList 0 + 4)
    (sizeSub (sizeSub (findStr line "else".toList 0) (findStr line "then".toList 0)) 4)
    (by omega)
  have e3 := substr_some line (findStr line "else".toList 0 + 4)
    (sizeSub (sizeSub (findStr line "fi".toList 0) (findStr line "else".toList 0)) 4)
    (by omega)
  have e2a : substr line (sizeAdd (findStr line "then".toList 0) 4)
      (sizeSub (sizeSub (findStr line "else".toList 0) (findStr line "then".toList 0)) 4)
      = some ((line.drop (findStr line "then".toList 0 + 4)).take
        (sizeSub (sizeSub (findStr line "else".toList 0) (findStr line "then".toList 0)) 4)) := by
    rw [sizeAdd_eq _ 4 (by omega)]
    exact e2
  have e3a : substr line (sizeAdd (findStr line "else".toList 0) 4)
      (sizeSub (sizeSub (findStr line "fi".toList 0) (findStr line "else".toList 0)) 4)
      = some ((line.drop (findStr line "else".toList 0 + 4)).take
        (sizeSub (sizeSub (findStr line "fi".toList 0) (findStr line "else".toList 0)) 4)) := by
    rw [sizeAdd_eq _ 4 (by omega)]
    exact e3
  exact ⟨(line.drop 2).take (sizeSub (findStr line "then".toList 0) 2),
    (line.drop (findStr line "then".toList 0 + 4)).take
      (sizeSub (sizeSub (findStr line "else".toList 0) (findStr line "then".toList 0)) 4),
    (line.drop (findStr line "else".toList 0 + 4)).take
      (sizeSub (sizeSub (findStr line "fi".toList 0) (findStr line "else".toList 0)) 4),
    ⟨hc, htp, hep⟩, e1, e2a, e3a,
    ifCaseHandling_eq_ifRun w s line _ _ _ ht he hf e1 e2a e3a hc htp hep⟩

theorem substr_piece (line part : Str) (pos n : Nat) (h : substr line pos n = some part) :
    part <:+: line := by
  unfold substr at h
  split_ifs at h
  simp only [Option.some.injEq] at h
  rw [← h]
  exact List.IsInfix.trans (List.take_prefix _ _).isInfix (List.drop_suffix _ _).isInfix

/-! ### Tokens are pieces of the line -/

theorem splitAux_tokens : ∀ (rest cur : Str) (t : Str), t ∈ splitAux rest cur →
    t ≠ [] ∧ t <:+: cur ++ rest
  | [], cur, t, h => by
    unfold splitAux at h
    by_cases hc : cur.isEmpty = true
    · simp [hc] at h
    · simp only [hc, Bool.false_eq_true, if_false, List.mem_singleton] at h
      subst h
      refine ⟨?_, by simp⟩
      intro e
      exact hc (by simp [e])
  | c :: cs, cur, t, h => by
    unfold splitAux at h
    by_cases hs : isspace c = true
    · simp only [hs, if_true] at h
      by_cases hc : cur.isEmpty = true
      · simp only [hc, if_true] at h
        obtain ⟨h1, h2⟩ := splitAux_tokens cs [] t h
        refine ⟨h1, ?_⟩
        simp only [List.nil_append] at h2
        exact List.IsInfix.trans h2 ⟨cur ++ [c], [], by simp⟩
      · simp only [hc, Bool.false_eq_true, if_false, List.mem_cons] at h
        rcases h with rfl | h
        · refine ⟨?_, ⟨[], c :: cs, by simp⟩⟩
          intro e
          exact hc (by simp [e])
        · obtain ⟨h1, h2⟩ := splitAux_tokens cs [] t h
          refine ⟨h1, ?_⟩
          simp only [List.nil_append] at h2
          exact List.IsInfix.trans h2 ⟨cur ++ [c], [], by simp⟩
    · simp only [hs, Bool.false_eq_true, if_false] at h
      obtain ⟨h1, h2⟩ := splitAux_tokens cs (cur ++ [c]) t h
      exact ⟨h1, by simpa using h2⟩

theorem tokenize_tokens (line t : Str) (h : t ∈ tokenize line) : t ≠ [] ∧ t <:+: line := by
  have := splitAux_tokens line [] t h
  simpa using this

theorem getD_mem_or_nil (l : List Str) (i : Nat) : l.getD i [] ∈ l ∨ l.getD i [] = [] := by
  by_cases h : i < l.length
  · left
    rw [List.getD_eq_getElem l [] h]
    exact List.getElem_mem h
  · right
    exact List.getD_eq_default l [] (by omega)

theorem getline_fields (s : Shell) :
    (getline s).2.history = s.history ∧ (getline s).2.historyIndex = s.historyIndex := by
  unfold getline
  cases s.stdin <;> exact ⟨rfl, rfl⟩

theorem parse_eq_dispatch (w : World) (s : Shell) (line : Str) :
    parse w s line = dispatch w
      { s with history := s.history ++ [line], historyIndex := (s.history ++ [line]).length }
      line (tokenize line) := rfl

theorem dispatch_returns (w : World) (s : Shell) (line : Str) (tokens : List Str)
    (hfork : ∀ n, w.fork n ≠ .failed)
    (hquit : tokens.head? ≠ some "quit".toList)
    (htok : ∀ t ∈ tokens, t ≠ [] ∧ t <:+: line) (hfit : Fits s line) :
    ∃ s1, dispatch w s line tokens = .ret () s1 ∧ s1.history = s.history
      ∧ s1.historyIndex = s.historyIndex := by
  have hsub : ∀ cmd : Str, (cmd <:+: line ∨ cmd = s.lastExecutedCommand) →
      ∃ c, substitute s.vars cmd = .ok c :=
    fun cmd h => substitute_completes s.vars cmd (hfit.2 cmd h)
  unfold dispatch
  by_cases h0 : tokens.isEmpty = true
  · rw [if_pos h0]
    exact ⟨_, rfl, rfl, rfl⟩
  rw [if_neg h0]
  by_cases h1 : tokens.getD 0 [] = "if".toList
  · rw [if_pos h1]
    rcases ifCaseHandling_cases w s line hfit.1 with ⟨msg, he⟩ | ⟨c, t, e, _, hc, ht, he, hrun⟩
    · rw [he]
      exact ⟨_, rfl, rfl, rfl⟩
    · obtain ⟨v, s1, hr, hh, hi⟩ := ifRun_returns w hfork s c t e
        (hsub c (Or.inl (substr_piece _ _ _ _ hc))) (hsub t (Or.inl (substr_piece _ _ _ _ ht)))
        (hsub e (Or.inl (substr_piece _ _ _ _ he)))
      rw [hrun, hr]
      exact ⟨_, rfl, hh, hi⟩
  rw [if_neg h1]
  by_cases h2 : tokens.getD 0 [] = "or".toList
  · rw [if_pos h2]
    obtain ⟨v, s1, hr, hh, hi⟩ := orCaseHandling_returns w hfork (tokens.drop 1) s
      (fun op hop => hsub op (Or.inl (htok op (List.mem_of_mem_drop hop)).2))
    rw [hr]
    exact ⟨_, rfl, hh, hi⟩
  rw [if_neg h2]
  by_cases h3 : tokens.getD 0 [] = "quit".toList
  · exfalso
    apply hquit
    cases tokens with
    | nil => simp at h0
    | cons t ts => simpa using h3
  rw [if_neg h3]
  by_cases h4 : tokens.getD 0 [] = "echo".toList ∧ tokens.length > 1
      ∧ tokens.getD 1 [] = "$?".toList
  · rw [if_pos h4]
    exact ⟨_, rfl, rfl, rfl⟩
  rw [if_neg h4]
  by_cases h5 : tokens.getD 0 [] = "echo".toList ∧ tokens.length > 1
      ∧ (tokens.getD 1 []).head? = some '$'
  · rw [if_pos h5]
    have hne : ¬ 1 > (tokens.getD 1 []).length := by
      cases h : tokens.getD 1 [] with
      | nil => rw [h] at h5; simp at h5
      | cons a b => simp
    unfold substrFrom
    rw [if_neg hne]
    simp only []
    cases s.vars ((tokens.getD 1 []).drop 1) <;> exact ⟨_, rfl, rfl, rfl⟩
  rw [if_neg h5]
  by_cases h6 : tokens.length ≥ 2 ∧ tokens.getD 0 [] = "cd".toList
  · rw [if_pos h6]
    simp only []
    by_cases hcd : w.chdir (tokens.getD 1 []) = true
    · rw [if_pos hcd]
      exact ⟨_, rfl, rfl, rfl⟩
    · rw [if_neg hcd]
      exact ⟨_, rfl, rfl, rfl⟩
  rw [if_neg h6]
  by_cases h7 : tokens.length = 2 ∧ tokens.getD 0 [] = "read".toList
  · rw [if_pos h7]
    exact ⟨_, rfl, (getline_fields s).1, (getline_fields s).2⟩
  rw [if_neg h7]
  by_cases h8 : tokens.length ≥ 3 ∧ tokens.getD 0 [] = "prompt".toList
      ∧ tokens.getD 1 [] = "=".toList
  · rw [if_pos h8]
    exact ⟨_, rfl, rfl, rfl⟩
  rw [if_neg h8]
  by_cases h9 : tokens.getD 0 [] = "!!".toList
  · rw [if_pos h9]
    by_cases hl : ¬ s.lastExecutedCommand.isEmpty = true
    · rw [if_pos hl]
      obtain ⟨v, s1, hr, hh, hi, _⟩ := executeCommand_returns w s s.lastExecutedCommand
        false false (hsub _ (Or.inr rfl)) hfork
      rw [hr]
      exact ⟨_, rfl, hh, hi⟩
    · rw [if_neg hl]
      exact ⟨_, rfl, rfl, rfl⟩
  rw [if_neg h9]
  by_cases h10 : tokens.length = 3 ∧ tokens.getD 1 [] = "=".toList
  · rw [if_pos h10]
    have hne : ¬ 1 > (tokens.getD 0 []).length := by
      cases tokens with
      | nil => simp at h0
      | cons t ts =>
        have := (htok t (List.mem_cons_self _ _)).1
        cases t with
        | nil => exact absurd rfl this
        | cons a b => simp
    unfold substrFrom
    rw [if_neg hne]
    exact ⟨_, rfl, rfl, rfl⟩
  rw [if_neg h10]
  obtain ⟨v, s1, hr, hh, hi, _⟩ := executeCommand_returns w s line false false
    (hsub line (Or.inl (List.infix_refl _))) hfork
  rw [hr]
  exact ⟨_, rfl, hh, hi⟩

/-- A line whose first word is not `quit` is dispatched and `parse` returns, with the
line appended to the history and the history cursor at the end. -/
theorem parse_returns (w : World) (s : Shell) (line : Str)
    (hfork : ∀ n, w.fork n ≠ .failed)
    (hquit : (tokenize line).head? ≠ some "quit".toList) (hfit : Fits s line) :
    ∃ s1, parse w s line = .ret () s1 ∧ s1.history = s.history ++ [line]
      ∧ s1.historyIndex = (s.history ++ [line]).length := by
  rw [parse_eq_dispatch]
  exact dispatch_returns w _ line (tokenize line) hfork hquit
    (fun t ht => tokenize_tokens line t ht) hfit

/-! ### The history log -/

/-- A line without `$`, dispatched when the last executed command has no `$` either,
fits whatever the store holds: substitution leaves such texts alone. -/
theorem fits_of_plain (s : Shell) (line : Str) (h1 : '$' ∉ line)
    (h2 : '$' ∉ s.lastExecutedCommand) (hl : line.length < 2 ^ 63)
    (hl2 : s.lastExecutedCommand.length < 2 ^ 63) : Fits s line := by
  refine ⟨by omega, ?_⟩
  rintro cmd (h | rfl)
  · have hd : '$' ∉ cmd := fun hm => h1 (h.subset hm)
    rw [substSpec_plain s.vars cmd hd]
    have := h.length_le
    omega
  · rw [substSpec_plain s.vars _ h2]
    omega

/-- Lines dispatched one after the other are appended to the history in order, and the
history cursor ends up at the end of the log. -/
theorem runLines_history (w : World) (hfork : ∀ n, w.fork n ≠ .failed) :
    ∀ (lines : List Str) (s : Shell), s.historyIndex = s.history.length →
      (∀ l ∈ lines, (tokenize l).head? ≠ some "quit".toList) → FitsAll w s lines →
      ∃ s1, runLines w s lines = .ret () s1 ∧ s1.history = s.history ++ lines
        ∧ s1.historyIndex = (s.history ++ lines).length
  | [], s, hidx, _, _ => ⟨s, rfl, by simp, by simpa using hidx⟩
  | l :: ls, s, _, hquit, hfit => by
    obtain ⟨s1, hp, hh, hi⟩ := parse_returns w s l hfork (hquit l (List.mem_cons_self _ _)) hfit.1
    obtain ⟨s2, hr, hh2, hi2⟩ := runLines_history w hfork ls s1 (by rw [hi, hh])
      (fun x hx => hquit x (List.mem_cons_of_mem _ hx)) (hfit.2 s1 hp)
    refine ⟨s2, ?_, ?_, ?_⟩
    · rw [runLines, hp]
      exact hr
    · rw [hh2, hh]
      simp
    · rw [hi2, hh]
      simp

/-! ### The line editor -/

theorem sizeSub_one (a : Nat) (h0 : 0 < a) (h : a < 2 ^ 64) : sizeSub a 1 = a - 1 :=
  sizeSub_eq a 1 (by omega) h

theorem EditOK.mono {L : Nat} {e : Edit} (h : EditOK L e) : EditOK (L + 1) e := by
  obtain ⟨hcur, hlen, hne, hN, hidx, hall⟩ := h
  exact ⟨hcur, by omega, hne, hN, hidx, fun x hx => by have := hall x hx; omega⟩

theorem pressKey_up_ok (e : Edit) (L : Nat) (h : EditOK L e) :
    ∃ e1, pressKey .up e = .ok e1 ∧ EditOK (L + 1) e1 ∧ e1.shell.history = e.shell.history := by
  have hsame := h.mono
  obtain ⟨hcur, hlen, hne, hN, hidx, hall⟩ := h
  rw [pressKey]
  by_cases hi : e.shell.historyIndex > 0
  · have e1 : sizeSub e.shell.historyIndex 1 = e.shell.historyIndex - 1 :=
      sizeSub_one _ hi (by omega)
    have hlt : e.shell.historyIndex - 1 < e.shell.history.length := by omega
    rw [if_pos hi]
    simp only [e1, List.getElem?_eq_getElem hlt]
    refine ⟨_, rfl, ⟨le_refl _, ?_, hne, hN, ?_, ?_⟩, rfl⟩
    · have := hall _ (List.getElem_mem hlt)
      simp only []
      omega
    · simp only [Shell.cout]
      omega
    · intro x hx
      have := hall x hx
      omega
  · rw [if_neg hi]
    exact ⟨e, rfl, hsame, rfl⟩

theorem pressKey_down_ok (e : Edit) (L : Nat) (h : EditOK L e) :
    ∃ e1, pressKey .down e = .ok e1 ∧ EditOK (L + 1) e1 ∧ e1.shell.history = e.shell.history := by
  have hsame := h.mono
  obtain ⟨hcur, hlen, hne, hN, hidx, hall⟩ := h
  have hN0 : 0 < e.shell.history.length := List.length_pos.2 hne
  rw [pressKey]
  have e0 : sizeSub e.shell.history.length 1 = e.shell.history.length - 1 :=
    sizeSub_one _ hN0 hN
  rw [e0]
  by_cases hi : e.shell.historyIndex < e.shell.history.length - 1
  · have hlt : e.shell.historyIndex + 1 < e.shell.history.length := by omega
    rw [if_pos hi, sizeAdd_eq _ _ (by omega)]
    simp only [List.getElem?_eq_getElem hlt]
    refine ⟨_, rfl, ⟨le_refl _, ?_, hne, hN, ?_, ?_⟩, rfl⟩
    · have := hall _ (List.getElem_mem hlt)
      simp only []
      omega
    · simp only [Shell.cout]
      omega
    · intro x hx
      have := hall x hx
      omega
  · by_cases hi2 : e.shell.historyIndex = e.shell.history.length - 1
    · rw [if_neg hi, if_pos hi2, sizeAdd_eq _ _ (by omega)]
      refine ⟨_, rfl, ⟨le_refl _, by simp, hne, hN, ?_, ?_⟩, rfl⟩
      · simp only [Shell.cout]
        omega
      · intro x hx
        have := hall x hx
        omega
    · rw [if_neg hi, if_neg hi2]
      exact ⟨e, rfl, hsame, rfl⟩

theorem pressKey_right_ok (e : Edit) (L : Nat) (h : EditOK L e) (hL : L + 1 < 2 ^ 64) :
    ∃ e1, pressKey .right e = .ok e1 ∧ EditOK (L + 1) e1
      ∧ e1.shell.history = e.shell.history := by
  have hsame := h.mono
  obtain ⟨hcur, hlen, hne, hN, hidx, hall⟩ := h
  rw [pressKey]
  by_cases hc : e.cursorPosition < e.input.length
  · rw [if_pos hc, sizeAdd_eq _ _ (by omega)]
    refine ⟨_, rfl, ⟨?_, ?_, hne, hN, hidx, ?_⟩, rfl⟩
    · simp only [Edit.cout]
      omega
    · simp only [Edit.cout]
      omega
    · intro x hx
      have := hall x hx
      omega
  · rw [if_neg hc]
    exact ⟨e, rfl, hsame, rfl⟩

theorem pressKey_left_ok (e : Edit) (L : Nat) (h : EditOK L e) (hL : L + 1 < 2 ^ 64) :
    ∃ e1, pressKey .left e = .ok e1 ∧ EditOK (L + 1) e1
      ∧ e1.shell.history = e.shell.history := by
  have hsame := h.mono
  obtain ⟨hcur, hlen, hne, hN, hidx, hall⟩ := h
  rw [pressKey]
  by_cases hc : e.cursorPosition > 0
  · rw [if_pos hc, sizeSub_one _ hc (by omega)]
    refine ⟨_, rfl, ⟨?_, ?_, hne, hN, hidx, ?_⟩, rfl⟩
    · simp only [Edit.cout]
      omega
    · simp only [Edit.cout]
      omega
    · intro x hx
      have := hall x hx
      omega
  · rw [if_neg hc]
    exact ⟨e, rfl, hsame, rfl⟩

theorem pressKey_backspace_ok (e : Edit) (L : Nat) (h : EditOK L e) (hL : L + 1 < 2 ^ 64) :
    ∃ e1, pressKey .backspace e = .ok e1 ∧ EditOK (L + 1) e1
      ∧ e1.shell.history = e.shell.history := by
  have hsame := h.mono
  obtain ⟨hcur, hlen, hne, hN, hidx, hall⟩ := h
  rw [pressKey]
  by_cases hc : e.cursorPosition > 0 ∧ ¬ e.input.isEmpty = true
  · have e1 : sizeSub e.cursorPosition 1 = e.cursorPosition - 1 :=
      sizeSub_one _ hc.1 (by omega)
    have e2 : erase e.input (e.cursorPosition - 1) 1
        = some (e.input.take (e.cursorPosition - 1)
          ++ (e.input.drop (e.cursorPosition - 1)).drop 1) := by
      unfold erase
      rw [if_neg (by omega)]
    rw [if_pos hc]
    simp only [e1, e2]
    refine ⟨_, rfl, ⟨?_, ?_, hne, hN, hidx, ?_⟩, rfl⟩
    · simp only [List.length_append, List.length_take, List.length_drop]
      omega
    · simp only [List.length_append, List.length_take, List.length_drop]
      omega
    · intro x hx
      have := hall x hx
      omega
  · rw [if_neg hc]
    exact ⟨e, rfl, hsame, rfl⟩

theorem pressKey_char_ok (ch : Char) (e : Edit) (L : Nat) (h : EditOK L e)
    (hL : L + 1 < 2 ^ 64) :
    ∃ e1, pressKey (.char ch) e = .ok e1 ∧ EditOK (L + 1) e1
      ∧ e1.shell.history = e.shell.history := by
  obtain ⟨hcur, hlen, hne, hN, hidx, hall⟩ := h
  rw [pressKey]
  have hc : ¬ e.cursorPosition > e.input.length := by omega
  rw [if_neg hc, sizeAdd_eq _ _ (by omega)]
  refine ⟨_, rfl, ⟨?_, ?_, hne, hN, hidx, ?_⟩, rfl⟩
  · simp only [List.length_append, List.length_take, List.length_cons, List.length_drop]
    omega
  · simp only [List.length_append, List.length_take, List.length_cons, List.length_drop]
    omega
  · intro x hx
    have := hall x hx
    omega

/-- One keystroke on an editor state in order gives a state in order. -/
theorem pressKey_ok (k : Key) (e : Edit) (L : Nat) (h : EditOK L e) (hL : L + 1 < 2 ^ 64) :
    ∃ e1, pressKey k e = .ok e1 ∧ EditOK (L + 1) e1 ∧ e1.shell.history = e.shell.history := by
  cases k with
  | up => exact pressKey_up_ok e L h
  | down => exact pressKey_down_ok e L h
  | right => exact pressKey_right_ok e L h hL
  | left => exact pressKey_left_ok e L h hL
  | other => exact ⟨e, rfl, h.mono, rfl⟩
  | backspace => exact pressKey_backspace_ok e L h hL
  | char ch => exact pressKey_char_ok ch e L h hL

/-- Any sequence of keystrokes on an editor state in order gives a state in order. -/
theorem pressKeys_ok : ∀ (keys : List Key) (e : Edit) (L : Nat), EditOK L e →
    L + keys.length < 2 ^ 64 →
    ∃ e1, pressKeys keys e = .ok e1 ∧ EditOK (L + keys.length) e1
      ∧ e1.shell.history = e.shell.history
  | [], e, L, h, _ => ⟨e, rfl, by simpa using h, rfl⟩
  | k :: ks, e, L, h, hL => by
    simp only [List.length_cons] at hL
    obtain ⟨e1, h1, hok1, hh1⟩ := pressKey_ok k e L h (by omega)
    obtain ⟨e2, h2, hok2, hh2⟩ := pressKeys_ok ks e1 (L + 1) hok1 (by omega)
    refine ⟨e2, ?_, ?_, by rw [hh2, hh1]⟩
    · rw [pressKeys, h1]
      exact h2
    · have : L + (ks.length + 1) = L + 1 + ks.length := by omega
      simpa [this] using hok2
/-! ### Browsing the history -/

theorem pressKeys_append : ∀ (a b : List Key) (e : Edit),
    pressKeys (a ++ b) e = match pressKeys a e with
      | .ok e1 => pressKeys b e1
      | .error f => .error f
  | [], b, e => rfl
  | k :: a, b, e => by
    rw [List.cons_append, pressKeys, pressKeys]
    cases pressKey k e with
    | error f => rfl
    | ok e1 => exact pressKeys_append a b e1

theorem pressKey_up_step (e : Edit) (hi : 0 < e.shell.historyIndex)
    (hidx : e.shell.historyIndex ≤ e.shell.history.length)
    (hN : e.shell.history.length < 2 ^ 64) :
    ∃ e1, pressKey .up e = .ok e1
      ∧ e.shell.history[e.shell.historyIndex - 1]? = some e1.input
      ∧ e1.cursorPosition = e1.input.length
      ∧ e1.shell.historyIndex = e.shell.historyIndex - 1
      ∧ e1.shell.history = e.shell.history := by
  have e1 : sizeSub e.shell.historyIndex 1 = e.shell.historyIndex - 1 :=
    sizeSub_one _ hi (by omega)
  have hlt : e.shell.historyIndex - 1 < e.shell.history.length := by omega
  rw [pressKey, if_pos hi]
  simp only [e1, List.getElem?_eq_getElem hlt]
  exact ⟨_, rfl, rfl, rfl, rfl, rfl⟩

theorem pressKey_down_step (e : Edit)
    (hi : e.shell.historyIndex + 1 < e.shell.history.length)
    (hN : e.shell.history.length < 2 ^ 64) :
    ∃ e1, pressKey .down e = .ok e1
      ∧ e.shell.history[e.shell.historyIndex + 1]? = some e1.input
      ∧ e1.cursorPosition = e1.input.length
      ∧ e1.shell.historyIndex = e.shell.historyIndex + 1
      ∧ e1.shell.history = e.shell.history := by
  have e0 : sizeSub e.shell.history.length 1 = e.shell.history.length - 1 :=
    sizeSub_one _ (by omega) hN
  have hi1 : e.shell.historyIndex < e.shell.history.length - 1 := by omega
  rw [pressKey, e0, if_pos hi1, sizeAdd_eq _ _ (by omega)]
  simp only [List.getElem?_eq_getElem hi]
  exact ⟨_, rfl, rfl, rfl, rfl, rfl⟩

theorem pressKey_down_last (e : Edit)
    (hi : e.shell.historyIndex + 1 = e.shell.history.length)
    (hN : e.shell.history.length < 2 ^ 64) :
    ∃ e1, pressKey .down e = .ok e1
      ∧ e1.input = [] ∧ e1.cursorPosition = 0
      ∧ e1.shell.historyIndex = e.shell.historyIndex + 1
      ∧ e1.shell.history = e.shell.history := by
  have e0 : sizeSub e.shell.history.length 1 = e.shell.history.length - 1 :=
    sizeSub_one _ (by omega) hN
  have hi1 : ¬ e.shell.historyIndex < e.shell.history.length - 1 := by omega
  have hi2 : e.shell.historyIndex = e.shell.history.length - 1 := by omega
  rw [pressKey, e0, if_neg hi1, if_pos hi2, sizeAdd_eq _ _ (by omega)]
  exact ⟨_, rfl, rfl, rfl, rfl, rfl⟩

/-- Pressing Up `k` times, `k` at most the history cursor. -/
theorem pressKeys_ups : ∀ (k : Nat) (e : Edit), k ≤ e.shell.historyIndex →
    e.shell.historyIndex ≤ e.shell.history.length → e.shell.history.length < 2 ^ 64 →
    ∃ e1, pressKeys (List.replicate k Key.up) e = .ok e1
      ∧ e1.shell.historyIndex = e.shell.historyIndex - k
      ∧ e1.shell.history = e.shell.history
      ∧ (0 < k → e.shell.history[e.shell.historyIndex - k]? = some e1.input
          ∧ e1.cursorPosition = e1.input.length)
  | 0, e, _, _, _ => ⟨e, rfl, rfl, rfl, fun h => absurd h (by omega)⟩
  | k + 1, e, hk, hidx, hN => by
    obtain ⟨e1, h1, hin1, hcur1, hi1, hh1⟩ := pressKey_up_step e (by omega) hidx hN
    obtain ⟨e2, h2, hi2, hh2, hlast⟩ := pressKeys_ups k e1 (by omega)
      (by rw [hi1, hh1]; omega) (by rw [hh1]; exact hN)
    refine ⟨e2, ?_, by rw [hi2, hi1]; omega, by rw [hh2, hh1], fun _ => ?_⟩
    · rw [List.replicate_succ, pressKeys, h1]
      exact h2
    · rcases Nat.eq_zero_or_pos k with hk0 | hk0
      · subst hk0
        have : e2 = e1 := by
          have := h2
          simp only [List.replicate_zero, pressKeys] at this
          exact (Except.ok.inj this).symm
        subst this
        exact ⟨hin1, hcur1⟩
      · have := hlast hk0
        rw [hh1, hi1] at this
        refine ⟨?_, this.2⟩
        have e3 : e.shell.historyIndex - (k + 1) = e.shell.historyIndex - 1 - k := by omega
        rw [e3]
        exact this.1

/-- Pressing Down `m` times, without going beyond the live line. -/
theorem pressKeys_downs : ∀ (m : Nat) (e : Edit),
    e.shell.historyIndex + m ≤ e.shell.history.length → e.shell.history.length < 2 ^ 64 →
    ∃ e1, pressKeys (List.replicate m Key.down) e = .ok e1
      ∧ e1.shell.historyIndex = e.shell.historyIndex + m
      ∧ e1.shell.history = e.shell.history
      ∧ (0 < m → e.shell.historyIndex + m = e.shell.history.length →
          e1.input = [] ∧ e1.cursorPosition = 0)
  | 0, e, _, _ => ⟨e, rfl, rfl, rfl, fun h => absurd h (by omega)⟩
  | m + 1, e, hm, hN => by
    have hfirst : ∃ e1, pressKey .down e = .ok e1
        ∧ e1.shell.historyIndex = e.shell.historyIndex + 1
        ∧ e1.shell.history = e.shell.history
        ∧ (e.shell.historyIndex + 1 = e.shell.history.length →
            e1.input = [] ∧ e1.cursorPosition = 0) := by
      by_cases hlast : e.shell.historyIndex + 1 = e.shell.history.length
      · obtain ⟨e1, h1, a, b, c, d⟩ := pressKey_down_last e hlast hN
        exact ⟨e1, h1, c, d, fun _ => ⟨a, b⟩⟩
      · obtain ⟨e1, h1, _, _, c, d⟩ := pressKey_down_step e (by omega) hN
        exact ⟨e1, h1, c, d, fun h => absurd h hlast⟩
    obtain ⟨e1, h1, hi1, hh1, hend1⟩ := hfirst
    obtain ⟨e2, h2, hi2, hh2, hend2⟩ := pressKeys_downs m e1
      (by rw [hi1, hh1]; omega) (by rw [hh1]; exact hN)
    refine ⟨e2, ?_, by rw [hi2, hi1]; omega, by rw [hh2, hh1], fun _ hend => ?_⟩
    · rw [List.replicate_succ, pressKeys, h1]
      exact h2
    · rcases Nat.eq_zero_or_pos m with hm0 | hm0
      · subst hm0
        have : e2 = e1 := by
          have := h2
          simp only [List.replicate_zero, pressKeys] at this
          exact (Except.ok.inj this).symm
        subst this
        exact hend1 (by omega)
      · exact hend2 hm0 (by rw [hi1, hh1]; omega)

/-- The characters of a run of escape sequences `ESC [ c`, then Enter, are read by
`getInput` as the keystrokes they stand for. -/
theorem getInputLoop_arrows : ∀ (cs rest : List Char) (e : Edit),
    getInputLoop ((cs.map (fun c => ['\x1b', '[', c])).flatten ++ '\n' :: rest) e
      = match pressKeys (cs.map arrowKey) e with
        | .ok e1 => .ok (e1.cout "\n".toList, rest)
        | .error f => .error f
  | [], rest, e => by
    simp only [List.map_nil, List.flatten_nil, List.nil_append, pressKeys]
    rcases rest with _ | ⟨a, _ | ⟨b, r⟩⟩ <;> simp [getInputLoop]
  | c :: cs, rest, e => by
    have ih := fun e1 => getInputLoop_arrows cs rest e1
    simp only [List.map_cons, List.flatten_cons, List.cons_append, List.nil_append, pressKeys]
    rw [getInputLoop, if_neg (by decide), if_pos rfl]
    cases pressKey (arrowKey c) e with
    | error f => rfl
    | ok e1 => exact ih e1
theorem erase_inserted (a b : Str) (ch : Char) :
    erase (a ++ ch :: b) a.length 1 = some (a ++ b) := by
  unfold erase
  rw [if_neg (by simp), List.take_left, List.drop_left]
  rfl

/-! ### Running the parts of an `if` line -/

/-- With both children forked, `ifRun` returns the status of the condition and has run
the condition and then exactly one of the two branches. -/
theorem ifRun_ran (w : World) (s : Shell) (c t e c1 t1 e1 : Str) (pid1 pid2 : Nat)
    (st1 st2 : WaitStatus) (hc : c ≠ []) (ht : t ≠ []) (he : e ≠ [])
    (hsc : substitute s.vars c = .ok c1) (hst : substitute s.vars t = .ok t1)
    (hse : substitute s.vars e = .ok e1)
    (hf1 : w.fork s.spawned.length = .parent pid1 st1)
    (hf2 : w.fork (s.spawned.length + 1) = .parent pid2 st2) :
    (ifRun w s c t e).value? = some (returned st1 true)
    ∧ (ifRun w s c t e).ran?
        = some (s.ran ++ [(c1, true), (if recorded st1 = 0 then t1 else e1, false)]) := by
  have hx1 := executeCommand_eq w s c true true c1 pid1 st1 hc hsc hf1
  unfold ifRun
  rw [hx1]
  by_cases hz : recorded st1 = 0
  · have hr : returned st1 true = 0 := (returned_eq_zero st1).2 hz
    simp only [hr, if_true, hz]
    rw [executeCommand_eq w _ t false false t1 pid2 st2 ht (by simpa using hst)
      (by simpa using hf2)]
    simp [Outcome.ran?, Outcome.state?, Outcome.value?, Shell.ran, afterWait_spawned]
  · have hr : ¬ returned st1 true = 0 := fun h => hz ((returned_eq_zero st1).1 h)
    simp only [hr, if_false, hz]
    rw [executeCommand_eq w _ e false false e1 pid2 st2 he (by simpa using hse)
      (by simpa using hf2)]
    simp [Outcome.ran?, Outcome.state?, Outcome.value?, Shell.ran, afterWait_spawned]

theorem substr_start (s : Str) (pos n : Nat) (r : Str) (h : substr s pos n = some r) :
    pos ≤ s.length := by
  unfold substr at h
  by_contra hgt
  rw [if_pos (by omega)] at h
  exact Option.noConfusion h
/-! ### Pipelines -/

theorem sizeMul_eq (a b : Nat) (h : a * b < 2 ^ 64) : sizeMul a b = a * b := by
  unfold sizeMul SIZE_MOD
  exact Nat.mod_eq_of_lt h

theorem createPipes_ok (pw : PipeWorld) : ∀ (l : List Nat) (calls : List PipeCall),
    (∀ i ∈ l, pw.pipe i = true) →
    createPipes pw l calls = .ok (calls ++ l.map (fun i => PipeCall.pipe (sizeMul i 2)))
  | [], calls, _ => by simp [createPipes]
  | i :: rest, calls, h => by
    rw [createPipes, if_pos (h i (List.mem_cons_self _ _)),
      createPipes_ok pw rest _ (fun j hj => h j (List.mem_cons_of_mem _ hj))]
    simp

theorem forkStages_ok (pw : PipeWorld) (commands : List Str) (dp : Bool) (ts : Nat) :
    ∀ (l : List Nat) (calls : List PipeCall),
    (∀ i ∈ l, pw.fork i = true) →
    forkStages pw commands dp ts l calls
      = .ok (calls ++ l.map (fun i => PipeCall.fork (stageOf commands dp ts i)))
  | [], calls, _ => by simp [forkStages]
  | i :: rest, calls, h => by
    rw [forkStages, if_pos (h i (List.mem_cons_self _ _)),
      forkStages_ok pw commands dp ts rest _ (fun j hj => h j (List.mem_cons_of_mem _ hj))]
    simp

theorem stageOf_eq (commands : List Str) (dp : Bool) (ts i : Nat)
    (hN : commands.length < 2 ^ 63) (hi : i < commands.length) :
    stageOf commands dp ts i =
      { stdinFrom := if i = 0 then none else some (2 * (i - 1))
        stdoutTo := if i = commands.length - 1 then none else some (2 * i + 1)
        closes := List.range ts
        command := commands.getD i []
        disablePrint := dp } := by
  have e1 : sizeSub commands.length 1 = commands.length - 1 :=
    sizeSub_eq _ 1 (by omega) (by omega)
  have e2 : sizeMul i 2 = i * 2 := sizeMul_eq _ _ (by omega)
  have e3 : sizeAdd (i * 2) 1 = i * 2 + 1 := sizeAdd_eq _ _ (by omega)
  unfold stageOf
  rw [e1, e2, e3]
  by_cases h0 : i = 0
  · subst h0
    simp
  · have e4 : sizeSub i 1 = i - 1 := sizeSub_eq _ 1 (by omega) (by omega)
    have e5 : sizeMul (i - 1) 2 = (i - 1) * 2 := sizeMul_eq _ _ (by omega)
    rw [e4, e5]
    simp only [ne_eq, h0, not_false_eq_true, if_true, if_false, Nat.mul_comm, ite_not]

/-- The calls of `executePipes` when every `pipe` and every `fork` succeeds. -/
theorem executePipes_calls (pw : PipeWorld) (commands : List Str) (dp : Bool)
    (hne : commands ≠ []) (hN : commands.length < 2 ^ 63)
    (hpipe : ∀ i, i + 1 < commands.length → pw.pipe i = true)
    (hfork : ∀ i, i < commands.length → pw.fork i = true) :
    executePipes pw commands dp = .ok
      ([PipeCall.alloc (2 * (commands.length - 1))]
        ++ (List.range (commands.length - 1)).map (fun i => PipeCall.pipe (2 * i))
        ++ (List.range commands.length).map (fun i => PipeCall.fork
            { stdinFrom := if i = 0 then none else some (2 * (i - 1))
              stdoutTo := if i = commands.length - 1 then none else some (2 * i + 1)
              closes := List.range (2 * (commands.length - 1))
              command := commands.getD i []
              disablePrint := dp })
        ++ (List.range (2 * (commands.length - 1))).map PipeCall.close
        ++ List.replicate commands.length PipeCall.wait) := by
  have hpos : 0 < commands.length := List.length_pos.2 hne
  have e1 : sizeSub commands.length 1 = commands.length - 1 :=
    sizeSub_eq _ 1 (by omega) (by omega)
  have e2 : sizeMul (commands.length - 1) 2 = 2 * (commands.length - 1) := by
    rw [sizeMul_eq _ _ (by omega), Nat.mul_comm]
  have hp : (List.range (commands.length - 1)).map (fun i => PipeCall.pipe (sizeMul i 2))
      = (List.range (commands.length - 1)).map (fun i => PipeCall.pipe (2 * i)) := by
    apply List.map_congr_left
    intro i hi
    have := List.mem_range.1 hi
    rw [sizeMul_eq _ _ (by omega), Nat.mul_comm]
  have hf : (List.range commands.length).map
        (fun i => PipeCall.fork (stageOf commands dp (2 * (commands.length - 1)) i))
      = (List.range commands.length).map (fun i => PipeCall.fork
            { stdinFrom := if i = 0 then none else some (2 * (i - 1))
              stdoutTo := if i = commands.length - 1 then none else some (2 * i + 1)
              closes := List.range (2 * (commands.length - 1))
              command := commands.getD i []
              disablePrint := dp }) := by
    apply List.map_congr_left
    intro i hi
    rw [stageOf_eq commands dp _ i hN (List.mem_range.1 hi)]
  have hc := createPipes_ok pw (List.range (commands.length - 1))
    [PipeCall.alloc (2 * (commands.length - 1))]
    (fun i hi => hpipe i (by have := List.mem_range.1 hi; omega))
  have hfk := forkStages_ok pw commands dp (2 * (commands.length - 1))
    (List.range commands.length)
    ([PipeCall.alloc (2 * (commands.length - 1))]
      ++ (List.range (commands.length - 1)).map (fun i => PipeCall.pipe (sizeMul i 2)))
    (fun i hi => hfork i (List.mem_range.1 hi))
  unfold executePipes
  rw [e1, e2]
  unfold executePipesFrom
  rw [hc]
  simp only []
  rw [hfk, hp, hf]
/-- Over an editor state in order, the loop of `getInput` either runs out of characters
or reaches Enter with the edit cursor inside the buffer; it never reads outside the
buffer or the history. -/
theorem getInputLoop_ok : ∀ (n : Nat) (chars : List Char) (e : Edit) (L : Nat),
    chars.length ≤ n → EditOK L e → L + chars.length < 2 ^ 64 →
    getInputLoop chars e = .error .endOfInput
    ∨ ∃ e1 rest, getInputLoop chars e = .ok (e1, rest)
        ∧ e1.cursorPosition ≤ e1.input.length
  | _, [], e, L, _, _, _ => Or.inl (by rw [getInputLoop])
  | 0, _ :: _, _, _, hn, _, _ => absurd hn (by simp)
  | n + 1, ch :: rest, e, L, hn, hok, hL => by
    simp only [List.length_cons] at hn hL
    by_cases h1 : ch = '\n'
    · refine Or.inr ⟨e.cout "\n".toList, rest, ?_, hok.1⟩
      subst h1
      rcases rest with _ | ⟨a, _ | ⟨b, r⟩⟩ <;> simp [getInputLoop]
    by_cases h2 : ch = '\x1b'
    · subst h2
      rcases rest with _ | ⟨a, _ | ⟨k, rest1⟩⟩
      · exact Or.inl (by simp [getInputLoop])
      · exact Or.inl (by simp [getInputLoop])
      · obtain ⟨e1, hk, hok1, -⟩ := pressKey_ok (arrowKey k) e L hok (by omega)
        simp only [List.length_cons] at hn hL
        have ih := getInputLoop_ok n rest1 e1 (L + 1) (by omega) hok1 (by omega)
        have : getInputLoop ('\x1b' :: a :: k :: rest1) e = getInputLoop rest1 e1 := by
          simp [getInputLoop, hk]
        rw [this]
        exact ih
    by_cases h3 : ch = '\x7f'
    · subst h3
      obtain ⟨e1, hk, hok1, -⟩ := pressKey_ok .backspace e L hok (by omega)
      have ih := getInputLoop_ok n rest e1 (L + 1) (by omega) hok1 (by omega)
      have : getInputLoop ('\x7f' :: rest) e = getInputLoop rest e1 := by
        rcases rest with _ | ⟨a, _ | ⟨b, r⟩⟩ <;> simp [getInputLoop, hk]
      rw [this]
      exact ih
    · obtain ⟨e1, hk, hok1, -⟩ := pressKey_ok (.char ch) e L hok (by omega)
      have ih := getInputLoop_ok n rest e1 (L + 1) (by omega) hok1 (by omega)
      have : getInputLoop (ch :: rest) e = getInputLoop rest e1 := by
        rcases rest with _ | ⟨a, _ | ⟨b, r⟩⟩ <;> simp [getInputLoop, hk, h1, h2, h3]
      rw [this]
      exact ih

/-! # The claims -/

/-- C1 (as stated, refuted): starting from the initial state, the line `x = hello`
followed by `echo $x` takes the "Variable not found" branch and does not print `hello`:
the assignment binds the name without its first character. -/
theorem assign_without_sigil_not_found :
    (runLines (World.always (.exited 0)) Shell.init
        ["x = hello".toList, "echo $x".toList]).trace?
      = some [Event.cerr "Variable not found.\n".toList]
    ∧ (runLines (World.always (.exited 0)) Shell.init
        ["x = hello".toList, "echo $x".toList]).trace?
      ≠ some [Event.cout "hello\n".toList] := by
  decide

/-- C1 (amended): when the assignment is written with the sigil, `$NAME = value`, where
`NAME` is a word other than `?` and `value` is a non-empty word, dispatching that line
and then `echo $NAME` through `parse` returns normally and writes exactly `value` and a
newline to standard output, and nothing else. -/
theorem assign_then_echo (w : World) (s : Shell) (name value : Str)
    (hname : IsWord name) (hq : name ≠ "?".toList)
    (hvalue : IsWord value) (hne : value ≠ []) :
    (runLines w s ['$' :: name ++ " = ".toList ++ value, "echo $".toList ++ name]).trace?
      = some (s.trace ++ [Event.cout (value ++ "\n".toList)]) := by
  simp only [runLines, parse_assign w s name value hname hvalue hne]
  rw [parse_echo w _ name hname hq]
  simp [Store.set, Outcome.trace?, Outcome.state?, Shell.cout]

/-- C1 (amended), at `$x = hello` followed by `echo $x`. -/
theorem assign_then_echo_witness :
    (IsWord "x".toList ∧ "x".toList ≠ "?".toList ∧ IsWord "hello".toList
      ∧ "hello".toList ≠ []) ∧
    (runLines (World.always (.exited 0)) Shell.init
        ['$' :: "x".toList ++ " = ".toList ++ "hello".toList, "echo $".toList ++ "x".toList]).trace?
      = some (Shell.init.trace ++ [Event.cout ("hello".toList ++ "\n".toList)]) :=
  ⟨by decide,
    assign_then_echo (World.always (.exited 0)) Shell.init "x".toList "hello".toList
      (by decide) (by decide) (by decide) (by decide)⟩

/-- C2 (the code departs from the claim): after `parse` dispatches the plain command
`false` whose child exits normally with code `c`, the last exit status is 2 when
`c % 256 = 2` and 0 for every other code, not `c`: `parse` overwrites the status that
`executeCommand` recorded with the value `executeCommand` returns. -/
theorem parse_overwrites_lastStatus (c : Nat) :
    (runLines (World.always (.exited c)) Shell.init ["false".toList]).lastStatus?
      = some (if c % 256 = 2 then 2 else 0) := by
  have htok : tokenize "false".toList = ["false".toList] := by decide
  unfold runLines parse
  rw [htok]
  simp only [List.isEmpty_cons, Bool.false_eq_true, if_false, List.getD_cons_zero,
    show ("false".toList = "if".toList) = False from by decide,
    show ("false".toList = "or".toList) = False from by decide,
    show ("false".toList = "quit".toList) = False from by decide,
    show ("false".toList = "echo".toList) = False from by decide,
    show ("false".toList = "cd".toList) = False from by decide,
    show ("false".toList = "read".toList) = False from by decide,
    show ("false".toList = "prompt".toList) = False from by decide,
    show ("false".toList = "!!".toList) = False from by decide,
    List.length_singleton, false_and, and_false, OfNat.ofNat_ne_one, ge_iff_le,
    Nat.not_ofNat_le_one, show ((1 : Nat) = 3) = False from by decide]
  rw [executeCommand_eq _ _ _ _ _ "false".toList 1 (.exited c) (by decide) (by decide) rfl]
  simp [runLines, Outcome.lastStatus?, Outcome.state?, returned, recorded, WIFEXITED, WEXITSTATUS]
  norm_cast

/-- C3 (as stated, refuted): a child that exits normally with code 2 and a child that
terminates abnormally leave the same recorded status, 2. -/
theorem sentinel_equals_exit_code_two :
    (executeCommand (World.always (.exited 2)) Shell.init "ls".toList false false).lastStatus?
      = some 2
    ∧ (executeCommand (World.always .abnormal) Shell.init "ls".toList false false).lastStatus?
      = some 2 := by
  decide

/-- C3 (amended): the status `executeCommand` records for a child that terminated
abnormally is the fixed non-zero value 2; for a child that exited normally with code `c`
it records `c % 256`, which equals that value exactly when `c % 256 = 2`. -/
theorem abnormal_status_sentinel (w : World) (s : Shell) (input command : Str)
    (bg dp : Bool) (pid : Nat) (hin : input ≠ [])
    (hsub : substitute s.vars input = .ok command) :
    (w.fork s.spawned.length = .parent pid .abnormal →
        (executeCommand w s input bg dp).lastStatus? = some 2)
    ∧ (2 : Int) ≠ 0
    ∧ ∀ c : Nat, w.fork s.spawned.length = .parent pid (.exited c) →
        (executeCommand w s input bg dp).lastStatus? = some ((c % 256 : Nat) : Int)
        ∧ ((executeCommand w s input bg dp).lastStatus? = some 2 ↔ c % 256 = 2) := by
  refine ⟨?_, by decide, ?_⟩
  · intro hf
    rw [executeCommand_eq w s input bg dp command pid _ hin hsub hf]
    simp [Outcome.lastStatus?, Outcome.state?, recorded, WIFEXITED]
  · intro c hf
    rw [executeCommand_eq w s input bg dp command pid _ hin hsub hf]
    simp only [Outcome.lastStatus?, Outcome.state?, Option.map_some', afterWait_lastStatus,
      recorded, WIFEXITED, WEXITSTATUS, if_true, Option.some.injEq, true_and]
    norm_cast

/-- C3 (amended), at the command `ls` in the initial state. -/
theorem abnormal_status_sentinel_witness :
    ("ls".toList ≠ [] ∧ substitute Shell.init.vars "ls".toList = .ok "ls".toList) ∧
    ((World.always .abnormal).fork Shell.init.spawned.length = .parent 1 .abnormal →
        (executeCommand (World.always .abnormal) Shell.init "ls".toList false false).lastStatus?
          = some 2)
    ∧ (2 : Int) ≠ 0
    ∧ ∀ c : Nat, (World.always .abnormal).fork Shell.init.spawned.length
          = .parent 1 (.exited c) →
        (executeCommand (World.always .abnormal) Shell.init "ls".toList false false).lastStatus?
          = some ((c % 256 : Nat) : Int)
        ∧ ((executeCommand (World.always .abnormal) Shell.init "ls".toList false
              false).lastStatus? = some 2 ↔ c % 256 = 2) :=
  ⟨⟨by decide, by decide⟩,
    abnormal_status_sentinel (World.always .abnormal) Shell.init "ls".toList "ls".toList
      false false 1 (by decide) (by decide)⟩

/-- C4 (the code departs from the claim): when the child exits with code 2, or
terminates abnormally, `executeCommand` returns with `childPid` still holding the
child's process id (here 1), not 0: the early return on status 2 skips the reset. -/
theorem childPid_left_set_on_status_two :
    (executeCommand (World.always (.exited 2)) Shell.init "ls /nonexistent".toList
        false false).childPid? = some 1
    ∧ (executeCommand (World.always .abnormal) Shell.init "sleep 100".toList
        false false).childPid? = some 1 := by
  decide

/-- C5 (the code departs from the claim): for `ls > out.txt` the text handed to `sh -c`
is still `ls > out.txt`, operator and path included, not `ls`: the two tokens are blanked
in the local token vector only. -/
theorem redirection_tokens_still_in_command :
    (executeCommand (World.always (.exited 0)) Shell.init "ls > out.txt".toList
        false false).ran? = some [("ls > out.txt".toList, false)]
    ∧ (executeCommand (World.always (.exited 0)) Shell.init "ls > out.txt".toList
        false false).ran? ≠ some [("ls".toList, false)] := by
  decide

/-- C6 (the code departs from the claim): for `ls 2> err.txt` the child does redirect
its standard output, to `err.txt` in truncate mode, in addition to the standard error
that the interpreter moved to that file. -/
theorem stderr_redirect_also_redirects_stdout :
    (executeCommand (World.always (.exited 0)) Shell.init "ls 2> err.txt".toList
        false false).spawned?
      = some [{ stdoutFile := some ("err.txt".toList, OpenMode.truncate)
                devNull := false
                stderrFile := some "err.txt".toList
                command := "ls 2> err.txt".toList }] := by
  decide

/-- C7: for every command shorter than `2 ^ 64` characters and every store in which no
`$` of the command is followed by a bound name (the name being the longest run of
characters up to the next blank, tab or newline), the substitution step of
`executeCommand` completes and returns the command unchanged. -/
theorem substitute_unbound_unchanged (vars : Store) (command : Str)
    (hlen : command.length < 2 ^ 64) (h : NoBoundName vars command) :
    substitute vars command = .ok command := by
  have := substLoop_unbound vars (command.length + 1) [] command (by omega)
    (by simpa using hlen) h
  simpa [substitute] using this

/-- C7, at `echo $UNDEFINED and $X` with only `HOME` bound. -/
theorem substitute_unbound_unchanged_witness :
    ("echo $UNDEFINED and $X".toList.length < 2 ^ 64
      ∧ NoBoundName (Store.empty.set "HOME".toList "/root".toList)
          "echo $UNDEFINED and $X".toList) ∧
    substitute (Store.empty.set "HOME".toList "/root".toList) "echo $UNDEFINED and $X".toList
      = .ok "echo $UNDEFINED and $X".toList :=
  ⟨⟨by decide, by decide⟩, substitute_unbound_unchanged _ _ (by decide) (by decide)⟩

/-- C8: the substitution step of `executeCommand` is single-pass and non-recursive: for
every command and store (the command and its result together shorter than `2 ^ 64`
characters) it completes and returns what `substSpec` describes, namely the command
read once from left to right, each span made of a `$` and the characters up to the next
blank, tab or newline replaced by the bound value when the name is bound and kept
otherwise, everything outside the spans kept, and nothing that was put in looked at
again. -/
theorem substitute_single_pass (vars : Store) (command : Str)
    (hlen : command.length + (substSpec vars command).length < 2 ^ 64) :
    substitute vars command = .ok (substSpec vars command) := by
  have := substLoop_refines vars (command.length + 1) [] command (by omega)
    (by simpa using hlen)
  simpa [substitute] using this

/-- C8, at `echo $A` with `A` bound to `$B` and `B` bound to `x`: the result is
`echo $B`, not `echo x`. -/
theorem substitute_single_pass_witness :
    substitute ((Store.empty.set "A".toList "$B".toList).set "B".toList "x".toList)
        "echo $A".toList = .ok "echo $B".toList :=
  substitute_single_pass ((Store.empty.set "A".toList "$B".toList).set "B".toList "x".toList)
    "echo $A".toList (by decide)

/-- C9 (amended): for command texts in which the letter sequences `then`, `else`, `fi`
do not occur where they would be taken for a keyword (`cmdA` contains none of them,
`cmdB` contains neither `else` nor `fi`, `cmdC` does not contain `fi`), `ifCaseHandling`
applied to `if cmdA then cmdB else cmdC fi` hands to the command executor first the text
of `cmdA` (between its two blanks, after substitution) with output suppressed, and then
exactly one more command with normal output: the text of `cmdB` when `cmdA` exited with
status 0, the text of `cmdC` otherwise. -/
theorem ifCaseHandling_selects_branch (w : World) (s : Shell)
    (cmdA cmdB cmdC cA cB cC : Str) (pid1 pid2 : Nat) (st1 st2 : WaitStatus)
    (hA : ¬ "then".toList <:+: cmdA ∧ ¬ "else".toList <:+: cmdA ∧ ¬ "fi".toList <:+: cmdA)
    (hB : ¬ "else".toList <:+: cmdB ∧ ¬ "fi".toList <:+: cmdB)
    (hC : ¬ "fi".toList <:+: cmdC)
    (hlen : (ifLine cmdA cmdB cmdC).length < 2 ^ 64)
    (hsA : substitute s.vars (' ' :: (cmdA ++ [' '])) = .ok cA)
    (hsB : substitute s.vars (' ' :: (cmdB ++ [' '])) = .ok cB)
    (hsC : substitute s.vars (' ' :: (cmdC ++ [' '])) = .ok cC)
    (hf1 : w.fork s.spawned.length = .parent pid1 st1)
    (hf2 : w.fork (s.spawned.length + 1) = .parent pid2 st2) :
    (ifCaseHandling w s (ifLine cmdA cmdB cmdC)).ran?
      = some (s.ran ++ [(cA, true), (if recorded st1 = 0 then cB else cC, false)]) := by
  obtain ⟨hp1, hp2, hp3⟩ := ifLine_parts cmdA cmdB cmdC hlen
  have hl : cmdA.length + cmdB.length + cmdC.length + 18 < 2 ^ 64 := by
    have : (ifLine cmdA cmdB cmdC).length = cmdA.length + cmdB.length + cmdC.length + 18 := by
      simp [ifLine]; omega
    omega
  have hn1 : cmdA.length + 4 ≠ npos := by rw [npos_eq]; omega
  have hn2 : cmdA.length + cmdB.length + 10 ≠ npos := by rw [npos_eq]; omega
  have hn3 : cmdA.length + cmdB.length + cmdC.length + 16 ≠ npos := by rw [npos_eq]; omega
  have hx1 := executeCommand_eq w s (' ' :: (cmdA ++ [' '])) true true cA pid1 st1 (by simp) hsA hf1
  unfold ifCaseHandling
  simp only [ifLine_then cmdA cmdB cmdC hA.1, ifLine_else cmdA cmdB cmdC hA.2.1 hB.1,
    ifLine_fi cmdA cmdB cmdC hA.2.2 hB.2 hC, hn1, hn2, hn3, if_false, hp1, hp2, hp3,
    List.isEmpty_cons, Bool.false_eq_true, or_self]
  rw [hx1]
  by_cases hz : recorded st1 = 0
  · have hr : returned st1 true = 0 := (returned_eq_zero st1).2 hz
    simp only [hr, if_true, hz]
    rw [executeCommand_eq w _ (' ' :: (cmdB ++ [' '])) false false cB pid2 st2
      (by simp) (by simpa using hsB) (by simpa using hf2)]
    simp [Outcome.ran?, Outcome.state?, Shell.ran, afterWait_spawned]
  · have hr : ¬ returned st1 true = 0 := fun h => hz ((returned_eq_zero st1).1 h)
    simp only [hr, if_false, hz]
    rw [executeCommand_eq w _ (' ' :: (cmdC ++ [' '])) false false cC pid2 st2
      (by simp) (by simpa using hsC) (by simpa using hf2)]
    simp [Outcome.ran?, Outcome.state?, Shell.ran, afterWait_spawned]

/-- C9 (amended), at `if true then echo yes else echo no fi` with a condition that
exits 0. -/
theorem ifCaseHandling_selects_branch_witness :
    (ifCaseHandling (World.always (.exited 0)) Shell.init
        (ifLine "true".toList "echo yes".toList "echo no".toList)).ran?
      = some (Shell.init.ran ++ [(" true ".toList, true),
          (if recorded (.exited 0) = 0 then " echo yes ".toList else " echo no ".toList, false)]) :=
  ifCaseHandling_selects_branch (World.always (.exited 0)) Shell.init
    "true".toList "echo yes".toList "echo no".toList
    " true ".toList " echo yes ".toList " echo no ".toList 1 2 (.exited 0) (.exited 0)
    (by decide) (by decide) (by decide) (by decide) (by decide) (by decide) (by decide) rfl rfl

/-- C9 (as stated, refuted): on `if a then b else ls file fi` with `a` exiting 1 the
else-branch that is run is `ls`, not `ls file`: the `fi` inside `file` is taken for the
closing keyword. -/
theorem ifCaseHandling_keyword_inside_command :
    (ifCaseHandling (World.always (.exited 1)) Shell.init
        (ifLine "a".toList "b".toList "ls file".toList)).ran?
      = some [(" a ".toList, true), (" ls ".toList, false)] := by
  decide

/-- C10 (amended): for every line in which one of the letter sequences `then`, `else`,
`fi` occurs nowhere, or in which the condition, the then-body or the else-body has no
character at all (the first `then` starts at position 2, the first `else` directly
follows the first `then`, or the first `fi` directly follows the first `else`),
`ifCaseHandling` returns -1 and does nothing but write a message to standard error;
in particular it runs no command. -/
theorem ifCaseHandling_rejects (w : World) (s : Shell) (line : Str)
    (hlen : line.length < 2 ^ 64) (h : Malformed line) :
    ∃ msg, ifCaseHandling w s line = .ret (-1) (s.cerr msg) := by
  rcases ifCaseHandling_error_or_parts w s line hlen with hm | ⟨ht, he, hf, hc, htp, hep⟩
  · exact hm
  exfalso
  rcases h with h | h | h | ⟨c0, c1, post, rfl⟩ | ⟨pre, post, rfl, h1, h2⟩ | ⟨pre, post, rfl, h1, h2⟩
  · exact ht (findStr_absent _ _ h)
  · exact he (findStr_absent _ _ h)
  · exact hf (findStr_absent _ _ h)
  · have e : findStr (c0 :: c1 :: ("then".toList ++ post)) "then".toList 0 = 2 := by
      have := findStr_first [c0, c1] "then".toList post (by decide) (by
        intro hi
        obtain ⟨a, b, hab⟩ := hi
        have hl := congrArg List.length hab
        simp only [List.length_append, String.toList, List.length_cons, List.length_nil,
          List.dropLast] at hl
        have ha : a.length = 0 ∨ a.length = 1 := by omega
        rcases ha with ha | ha
        · have : a = [] := List.length_eq_zero.1 ha
          subst this
          simp [String.toList, List.dropLast] at hab
        · obtain ⟨x, rfl⟩ := List.length_eq_one.1 ha
          simp [String.toList, List.dropLast] at hab)
      simpa using this
    apply hc
    rw [e, sizeSub_eq 2 2 (by omega) (by omega)]
    simp
  · have e1 : findStr (pre ++ ("then".toList ++ ("else".toList ++ post))) "then".toList 0
        = pre.length := findStr_first pre "then".toList _ (by decide) h1
    have e2 : findStr (pre ++ ("then".toList ++ ("else".toList ++ post))) "else".toList 0
        = pre.length + 4 := by
      have := findStr_first (pre ++ "then".toList) "else".toList post (by decide) (by
        simpa using h2)
      simpa using this
    have hb : pre.length + 4 < 2 ^ 64 := by
      simp only [List.length_append, String.toList, List.length_cons, List.length_nil] at hlen
      omega
    apply htp
    rw [e1, e2, take_zero_of_sub _ _ hb]
  · have e1 : findStr (pre ++ ("else".toList ++ ("fi".toList ++ post))) "else".toList 0
        = pre.length := findStr_first pre "else".toList _ (by decide) h1
    have e2 : findStr (pre ++ ("else".toList ++ ("fi".toList ++ post))) "fi".toList 0
        = pre.length + 4 := by
      have := findStr_first (pre ++ "else".toList) "fi".toList post (by decide) (by
        simpa using h2)
      simpa using this
    have hb : pre.length + 4 < 2 ^ 64 := by
      simp only [List.length_append, String.toList, List.length_cons, List.length_nil] at hlen
      omega
    apply hep
    rw [e1, e2, take_zero_of_sub _ _ hb]

/-- C10 (amended), at `if a then b`, which has no `else`. -/
theorem ifCaseHandling_rejects_witness :
    ("if a then b".toList.length < 2 ^ 64 ∧ Malformed "if a then b".toList) ∧
    ∃ msg, ifCaseHandling (World.always (.exited 0)) Shell.init "if a then b".toList
      = .ret (-1) (Shell.init.cerr msg) :=
  ⟨⟨by decide, Or.inr (Or.inl (by decide))⟩,
    ifCaseHandling_rejects (World.always (.exited 0)) Shell.init "if a then b".toList
      (by decide) (Or.inr (Or.inl (by decide)))⟩

/-- C10 (as stated, refuted): `if then a else b fi`, whose condition is a single blank,
is not rejected: the blank is run as the condition and then `a`; and
`if c then cat a else cat file`, which has no closing `fi`, is not rejected either,
because `file` contains the letters `fi`. -/
theorem ifCaseHandling_blank_parts_accepted :
    (ifCaseHandling (World.always (.exited 0)) Shell.init "if then a else b fi".toList).value?
      = some 0
    ∧ (ifCaseHandling (World.always (.exited 0)) Shell.init "if then a else b fi".toList).ran?
      = some [(" ".toList, true), (" a ".toList, false)]
    ∧ (ifCaseHandling (World.always (.exited 0)) Shell.init
        "if c then cat a else cat file".toList).ran?
      = some [(" c ".toList, true), (" cat a ".toList, false)] := by
  decide

/-! ### Claims C11 to C20 -/

/-- C11: for every list of non-empty operands whose children are forked and reported
with the statuses `sts 0`, `sts 1`, ..., `orCaseHandling` runs the operands from left to
right, each with output suppressed. If no operand exits with status 0 it runs them all
and returns 1; if operand `k` is the first to exit with status 0 it runs the operands
up to `k`, none after it, and returns 0; so it returns 0 exactly when some operand exits
with status 0. (`subs` are the operands after variable substitution.) -/
theorem orCaseHandling_first_success_wins (w : World) (s : Shell) (ops subs : List Str)
    (pids : Nat → Nat) (sts : Nat → WaitStatus)
    (hne : ∀ op ∈ ops, op ≠ [])
    (hsub : List.Forall₂ (fun op c => substitute s.vars op = .ok c) ops subs)
    (hfork : ∀ i, i < ops.length → w.fork (s.spawned.length + i) = .parent (pids i) (sts i)) :
    ((∀ i, i < ops.length → recorded (sts i) ≠ 0) →
        (orCaseHandling w s ops).value? = some 1
        ∧ (orCaseHandling w s ops).ran? = some (s.ran ++ subs.map (fun c => (c, true))))
    ∧ (∀ k, k < ops.length → recorded (sts k) = 0 → (∀ i, i < k → recorded (sts i) ≠ 0) →
        (orCaseHandling w s ops).value? = some 0
        ∧ (orCaseHandling w s ops).ran?
            = some (s.ran ++ (subs.take (k + 1)).map (fun c => (c, true))))
    ∧ ((orCaseHandling w s ops).value? = some 0 ↔ ∃ i, i < ops.length ∧ recorded (sts i) = 0) := by
  have hall : (∀ i, i < ops.length → recorded (sts i) ≠ 0) →
      (orCaseHandling w s ops).value? = some 1
      ∧ (orCaseHandling w s ops).ran? = some (s.ran ++ subs.map (fun c => (c, true))) := by
    intro hfail
    obtain ⟨s1, he, hran⟩ := orCaseHandling_all_fail w ops subs s pids sts hne hsub hfork hfail
    rw [he]
    simp [Outcome.value?, Outcome.ran?, Outcome.state?, hran]
  have hfirst : ∀ k, k < ops.length → recorded (sts k) = 0 →
      (∀ i, i < k → recorded (sts i) ≠ 0) →
      (orCaseHandling w s ops).value? = some 0
      ∧ (orCaseHandling w s ops).ran?
          = some (s.ran ++ (subs.take (k + 1)).map (fun c => (c, true))) := by
    intro k hk hz hfail
    obtain ⟨s1, he, hran⟩ := orCaseHandling_first_success w k ops subs s pids sts hne hsub
      hfork hk hz hfail
    rw [he]
    simp [Outcome.value?, Outcome.ran?, Outcome.state?, hran]
  refine ⟨hall, hfirst, ?_⟩
  constructor
  · intro hv
    by_contra hno
    have hfail : ∀ i, i < ops.length → recorded (sts i) ≠ 0 :=
      fun i hi hz => hno ⟨i, hi, hz⟩
    rw [(hall hfail).1] at hv
    exact absurd hv (by decide)
  · intro hex
    have hex2 : ∃ i, i < ops.length ∧ recorded (sts i) = 0 := hex
    have hk := Nat.find_spec hex2
    exact (hfirst (Nat.find hex2) hk.1 hk.2 (fun i hi hz =>
      Nat.find_min hex2 hi ⟨lt_trans hi hk.1, hz⟩)).1

/-- C11, at `or false false true` (the third operand exits 0) and at
`or false false false`. -/
theorem orCaseHandling_first_success_wins_witness :
    ((orCaseHandling (World.script [.exited 1, .exited 1, .exited 0]) Shell.init
        ["false".toList, "false".toList, "true".toList]).value? = some 0
      ∧ (orCaseHandling (World.script [.exited 1, .exited 1, .exited 0]) Shell.init
        ["false".toList, "false".toList, "true".toList]).ran?
          = some (Shell.init.ran ++ (["false".toList, "false".toList, "true".toList].take
              (2 + 1)).map (fun c => (c, true))))
    ∧ ((orCaseHandling (World.script [.exited 1, .exited 1, .exited 1]) Shell.init
        ["false".toList, "false".toList, "false".toList]).value? = some 1
      ∧ (orCaseHandling (World.script [.exited 1, .exited 1, .exited 1]) Shell.init
        ["false".toList, "false".toList, "false".toList]).ran?
          = some (Shell.init.ran ++ ["false".toList, "false".toList, "false".toList].map
              (fun c => (c, true)))) :=
  ⟨(orCaseHandling_first_success_wins (World.script [.exited 1, .exited 1, .exited 0])
      Shell.init ["false".toList, "false".toList, "true".toList]
      ["false".toList, "false".toList, "true".toList] (fun i => i + 1)
      (fun i => [WaitStatus.exited 1, .exited 1, .exited 0].getD i (.exited 0))
      (by decide)
      (.cons (by decide) (.cons (by decide) (.cons (by decide) .nil)))
      (fun i _ => by simp [World.script, Shell.init])).2.1 2 (by decide) (by decide)
      (fun i hi => by interval_cases i <;> decide),
    (orCaseHandling_first_success_wins (World.script [.exited 1, .exited 1, .exited 1])
      Shell.init ["false".toList, "false".toList, "false".toList]
      ["false".toList, "false".toList, "false".toList] (fun i => i + 1)
      (fun i => [WaitStatus.exited 1, .exited 1, .exited 1].getD i (.exited 0))
      (by decide)
      (.cons (by decide) (.cons (by decide) (.cons (by decide) .nil)))
      (fun i _ => by simp [World.script, Shell.init])).1
      (fun i hi => by
        simp only [List.length_cons, List.length_nil] at hi
        interval_cases i <;> decide)⟩

/-- C12: starting from an empty history (with the history cursor at 0), for every
sequence of lines submitted to `parse`, none of which is a `quit` line, `parse` returns
on each of them (given that no `fork` fails and that the texts to execute stay within
the range of `size_t`), and afterwards the history log consists of exactly the
submitted lines in submission order and the history cursor equals their number. -/
theorem history_is_submitted_lines (w : World) (s : Shell) (lines : List Str)
    (hempty : s.history = []) (hidx : s.historyIndex = 0)
    (hfork : ∀ n, w.fork n ≠ .failed)
    (hquit : ∀ l ∈ lines, (tokenize l).head? ≠ some "quit".toList)
    (hfit : FitsAll w s lines) :
    (runLines w s lines).history? = some lines
    ∧ (runLines w s lines).historyIndex? = some lines.length := by
  obtain ⟨s1, hr, hh, hi⟩ := runLines_history w hfork lines s (by rw [hidx, hempty]; rfl)
    hquit hfit
  rw [hr]
  simp only [Outcome.history?, Outcome.historyIndex?, Outcome.state?, Option.map_some', hh, hi,
    hempty, List.nil_append, and_self]

/-- C12, at the lines `ls -l`, `cd /tmp` submitted to the initial state. -/
theorem history_is_submitted_lines_witness :
    (runLines (World.always (.exited 0)) Shell.init
        ["ls -l".toList, "cd /tmp".toList]).history?
      = some ["ls -l".toList, "cd /tmp".toList]
    ∧ (runLines (World.always (.exited 0)) Shell.init
        ["ls -l".toList, "cd /tmp".toList]).historyIndex?
      = some ["ls -l".toList, "cd /tmp".toList].length :=
  history_is_submitted_lines (World.always (.exited 0)) Shell.init
    ["ls -l".toList, "cd /tmp".toList] rfl rfl
    (fun n h => by simp [World.always] at h) (by decide)
    ⟨fits_of_plain _ _ (by decide) (by decide) (by decide) (by decide), fun s1 h1 => by
      have hl : (parse (World.always (.exited 0)) Shell.init "ls -l".toList).state?.map
          (fun x => x.lastExecutedCommand) = some "ls -l".toList := by decide
      rw [h1] at hl
      simp only [Outcome.state?, Option.map_some', Option.some.injEq] at hl
      exact ⟨fits_of_plain _ _ (by decide) (by rw [hl]; decide) (by decide)
        (by rw [hl]; decide), fun _ _ => trivial⟩⟩

/-- C13: with the history cursor on the live line (`historyIndex = history.size()`, the
vector shorter than `2^64`), `N = history.size()` Up keystrokes followed by `N` Down
keystrokes leave the edit buffer empty, the edit cursor at 0 and the history cursor at
`N`; the `k`-th Up (`1 ≤ k ≤ N`) loads history entry `N - k` with the edit cursor at its
end; and `getInput` fed the `N` sequences `ESC [ A`, the `N` sequences `ESC [ B` and
Enter returns the empty line. -/
theorem up_then_down_returns_to_live_line (s : Shell) (rest : List Char)
    (hN : s.history.length < 2 ^ 64) (hidx : s.historyIndex = s.history.length) :
    (∃ e1, pressKeys (List.replicate s.history.length Key.up
          ++ List.replicate s.history.length Key.down) (Edit.mk [] 0 s) = .ok e1
        ∧ e1.input = [] ∧ e1.cursorPosition = 0
        ∧ e1.shell.historyIndex = s.history.length ∧ e1.shell.history = s.history)
    ∧ (∀ k, 1 ≤ k → k ≤ s.history.length →
        ∃ ek, pressKeys (List.replicate k Key.up) (Edit.mk [] 0 s) = .ok ek
          ∧ s.history[s.history.length - k]? = some ek.input
          ∧ ek.cursorPosition = ek.input.length
          ∧ ek.shell.historyIndex = s.history.length - k)
    ∧ (∃ s1, getInput (((List.replicate s.history.length 'A'
            ++ List.replicate s.history.length 'B').map (fun c => ['\x1b', '[', c])).flatten
          ++ '\n' :: rest) s = .ret ([], rest) s1
        ∧ s1.historyIndex = s.history.length ∧ s1.history = s.history) := by
  have hfirst : ∃ e1, pressKeys (List.replicate s.history.length Key.up
        ++ List.replicate s.history.length Key.down) (Edit.mk [] 0 s) = .ok e1
      ∧ e1.input = [] ∧ e1.cursorPosition = 0
      ∧ e1.shell.historyIndex = s.history.length ∧ e1.shell.history = s.history := by
    obtain ⟨e1, h1, hi1, hh1, -⟩ := pressKeys_ups s.history.length (Edit.mk [] 0 s)
      (by simp only [hidx]; exact le_refl _) (by simp only [hidx]; exact le_refl _) hN
    simp only [hidx, Nat.sub_self] at hi1
    simp only at hh1
    obtain ⟨e2, h2, hi2, hh2, hend⟩ := pressKeys_downs s.history.length e1
      (by rw [hi1, hh1]; omega) (by rw [hh1]; exact hN)
    simp only [hi1, Nat.zero_add] at hi2
    rw [hh1] at hh2
    refine ⟨e2, ?_, ?_, ?_, hi2, hh2⟩
    · rw [pressKeys_append, h1]
      exact h2
    · rcases Nat.eq_zero_or_pos s.history.length with h0 | h0
      · rw [h0] at h1 h2
        simp only [List.replicate_zero, pressKeys] at h1 h2
        rw [← Except.ok.inj h2, ← Except.ok.inj h1]
      · exact (hend h0 (by rw [hi1, hh1]; omega)).1
    · rcases Nat.eq_zero_or_pos s.history.length with h0 | h0
      · rw [h0] at h1 h2
        simp only [List.replicate_zero, pressKeys] at h1 h2
        rw [← Except.ok.inj h2, ← Except.ok.inj h1]
      · exact (hend h0 (by rw [hi1, hh1]; omega)).2
  refine ⟨hfirst, ?_, ?_⟩
  · intro k hk1 hkN
    obtain ⟨ek, h1, hi1, -, hshow⟩ := pressKeys_ups k (Edit.mk [] 0 s)
      (by simp only [hidx]; exact hkN) (by simp only [hidx]; exact le_refl _) hN
    simp only [hidx] at hi1 hshow
    exact ⟨ek, h1, (hshow (by omega)).1, (hshow (by omega)).2, hi1⟩
  · obtain ⟨e1, h1, hin, -, hi1, hh1⟩ := hfirst
    have hkeys : (List.replicate s.history.length 'A'
          ++ List.replicate s.history.length 'B').map arrowKey
        = List.replicate s.history.length Key.up
          ++ List.replicate s.history.length Key.down := by
      simp [List.map_append, List.map_replicate, arrowKey]
    refine ⟨e1.shell.cout "\n".toList, ?_, hi1, hh1⟩
    unfold getInput
    rw [getInputLoop_arrows, hkeys, h1]
    simp only [Edit.cout, hin]

theorem up_then_down_returns_to_live_line_witness :
    (∃ s1, getInput "\x1b[A\x1b[A\x1b[B\x1b[B\nrest".toList
        { Shell.init with history := ["ls".toList, "pwd".toList], historyIndex := 2 }
        = .ret ([], "rest".toList) s1 ∧ s1.historyIndex = 2
        ∧ s1.history = ["ls".toList, "pwd".toList])
    ∧ (∃ e1, pressKeys [Key.up]
          (Edit.mk [] 0
            { Shell.init with history := ["ls".toList, "pwd".toList], historyIndex := 2 })
          = .ok e1 ∧ e1.input = "pwd".toList ∧ e1.cursorPosition = 3) := by
  have h := up_then_down_returns_to_live_line
    { Shell.init with history := ["ls".toList, "pwd".toList], historyIndex := 2 }
    "rest".toList (by simp) rfl
  refine ⟨h.2.2, ?_⟩
  obtain ⟨ek, h1, h2, h3, -⟩ := h.2.1 1 (le_refl _) (by simp)
  refine ⟨ek, h1, ?_, ?_⟩
  · simp at h2
    exact h2.symm
  · simp at h2
    rw [h3, ← h2]
    rfl

/-- C14: on the shell as constructed (empty history, `historyIndex = 0`) a first Down
keystroke finds `historyIndex < history.size() - 1` true, because the unsigned
`history.size() - 1` is the largest `size_t`; it increments `historyIndex` to 1, beyond
`history.size() = 0`, and reads `history[1]` outside the vector. -/
theorem down_on_empty_history_out_of_bounds :
    Shell.init.history = [] ∧ Shell.init.historyIndex = 0
    ∧ sizeSub Shell.init.history.length 1 = npos
    ∧ Shell.init.historyIndex < sizeSub Shell.init.history.length 1
    ∧ Shell.init.history[sizeAdd Shell.init.historyIndex 1]? = none
    ∧ pressKey .down (Edit.mk [] 0 Shell.init) = .error .outOfBounds
    ∧ getInput ['\x1b', '[', 'B', '\n'] Shell.init = .fault .outOfBounds := by
  refine ⟨rfl, rfl, by decide, by decide, by decide, by rfl, by rfl⟩

/-- C15 (as stated, refuted): the empty line and a line of three blanks each create a
history entry. -/
theorem blank_line_enters_history :
    (parse (World.always (.exited 0)) Shell.init []).history? = some [[]]
    ∧ (parse (World.always (.exited 0)) Shell.init "   ".toList).history?
      = some ["   ".toList] := by
  decide

/-- C15 (amended): every submitted line creates exactly one history entry, placed after
the existing entries, which are neither removed nor changed: unconditionally for a line
that is empty or consists only of white space, and for every other line that is not a
`quit` line whenever `parse` comes back from it (no `fork` fails, the texts to execute
stay within the range of `size_t`). -/
theorem parse_appends_every_line (w : World) (s : Shell) (line : Str) :
    (tokenize line = [] → (parse w s line).history? = some (s.history ++ [line]))
    ∧ ((∀ n, w.fork n ≠ .failed) → (tokenize line).head? ≠ some "quit".toList →
        Fits s line → (parse w s line).history? = some (s.history ++ [line])) := by
  constructor
  · intro h
    rw [parse_eq_dispatch, h]
    rfl
  · intro hfork hquit hfit
    obtain ⟨s1, hp, hh, _⟩ := parse_returns w s line hfork hquit hfit
    rw [hp]
    simp [Outcome.history?, Outcome.state?, hh]

/-- C15 (amended), at a line of blanks and at the line `ls`, each submitted to the
initial state. -/
theorem parse_appends_every_line_witness :
    (parse (World.always (.exited 0)) Shell.init "  ".toList).history?
      = some (Shell.init.history ++ ["  ".toList])
    ∧ (parse (World.always (.exited 0)) Shell.init "ls".toList).history?
      = some (Shell.init.history ++ ["ls".toList]) :=
  ⟨(parse_appends_every_line (World.always (.exited 0)) Shell.init "  ".toList).1 (by decide),
    (parse_appends_every_line (World.always (.exited 0)) Shell.init "ls".toList).2
      (fun n h => by simp [World.always] at h) (by decide)
      (fits_of_plain _ _ (by decide) (by decide) (by decide) (by decide))⟩

/-- C16: the variable-substitution loop of `executeCommand` terminates for every store
and every command text (command and result together within the `size_t` range): run
with any bound on the number of iterations above the length of the command it ends
with a result, never with an error and never out of iterations; in particular the
substitution step of `executeCommand`, which allows one iteration per character and one
more, completes. -/
theorem substLoop_terminates (vars : Store) (command : Str)
    (hlen : command.length + (substSpec vars command).length < 2 ^ 64) :
    (∀ fuel, command.length < fuel →
        substLoop vars fuel command 0 = .ok (substSpec vars command))
    ∧ ∃ result, substitute vars command = .ok result := by
  have hall : ∀ fuel, command.length < fuel →
      substLoop vars fuel command 0 = .ok (substSpec vars command) := by
    intro fuel hfuel
    have := substLoop_refines vars fuel [] command hfuel (by simpa using hlen)
    simpa using this
  exact ⟨hall, _, hall (command.length + 1) (by omega)⟩

theorem substLoop_terminates_witness :
    substLoop ((Store.empty.set "E".toList []).set "D".toList "$D $E $".toList) 12
        "a $E $D $ $".toList 0
      = .ok (substSpec ((Store.empty.set "E".toList []).set "D".toList "$D $E $".toList)
          "a $E $D $ $".toList)
    ∧ (∃ result, substitute ((Store.empty.set "E".toList []).set "D".toList "$D $E $".toList)
        "a $E $D $ $".toList = .ok result)
    ∧ substSpec ((Store.empty.set "E".toList []).set "D".toList "$D $E $".toList)
        "a $E $D $ $".toList = "a  $D $E $ $ $".toList := by
  have h := substLoop_terminates
    ((Store.empty.set "E".toList []).set "D".toList "$D $E $".toList)
    "a $E $D $ $".toList (by decide)
  exact ⟨h.1 12 (by decide), h.2, by decide⟩

/-- C17: over a non-empty history whose cursor is within it, from a state with the edit
cursor inside the buffer, after every keystroke of every sequence of keystrokes the
edit cursor is at most the length of the buffer (all lengths within the `size_t` range:
the buffer and the history entries have at most `L` characters and `L` plus the number
of keystrokes is below `2^64`); Left and Backspace at position 0 and Right at the end
of the line change nothing; and the loop of `getInput`, run from such a state on any
sequence of characters, either runs out of characters before Enter or returns at Enter
with the edit cursor inside the buffer, without reading outside the buffer or the
history. -/
theorem cursor_stays_in_buffer (keys : List Key) (e : Edit) (L : Nat)
    (hcur : e.cursorPosition ≤ e.input.length) (hlen : e.input.length ≤ L)
    (hne : e.shell.history ≠ []) (hN : e.shell.history.length < 2 ^ 64)
    (hidx : e.shell.historyIndex ≤ e.shell.history.length)
    (hall : ∀ h ∈ e.shell.history, h.length ≤ L)
    (hL : L + keys.length < 2 ^ 64) :
    (∀ n, n ≤ keys.length → ∃ e1, pressKeys (keys.take n) e = .ok e1
        ∧ e1.cursorPosition ≤ e1.input.length)
    ∧ (∀ e0 : Edit, e0.cursorPosition = 0 →
        pressKey .left e0 = .ok e0 ∧ pressKey .backspace e0 = .ok e0)
    ∧ (∀ e0 : Edit, e0.cursorPosition = e0.input.length → pressKey .right e0 = .ok e0)
    ∧ (∀ chars : List Char, L + chars.length < 2 ^ 64 →
        getInputLoop chars e = .error .endOfInput
        ∨ ∃ e1 rest, getInputLoop chars e = .ok (e1, rest)
            ∧ e1.cursorPosition ≤ e1.input.length) := by
  refine ⟨fun n hn => ?_, fun e0 h0 => ⟨?_, ?_⟩, fun e0 h0 => ?_, fun chars hc => ?_⟩
  · obtain ⟨e1, h1, hok, -⟩ := pressKeys_ok (keys.take n) e L
      ⟨hcur, hlen, hne, hN, hidx, hall⟩
      (by have := List.length_take_le n keys; omega)
    exact ⟨e1, h1, hok.1⟩
  · rw [pressKey, if_neg (by omega)]
  · rw [pressKey, if_neg (by omega)]
  · rw [pressKey, if_neg (by omega)]
  · exact getInputLoop_ok chars.length chars e L (le_refl _)
      ⟨hcur, hlen, hne, hN, hidx, hall⟩ hc

theorem cursor_stays_in_buffer_witness :
    ∃ e1, pressKeys [Key.char 'a', Key.left, Key.left, Key.backspace, Key.right, Key.right,
        Key.up, Key.char 'b', Key.down]
        (Edit.mk [] 0 { Shell.init with history := ["ls".toList], historyIndex := 1 })
        = .ok e1 ∧ e1.cursorPosition ≤ e1.input.length := by
  have h := (cursor_stays_in_buffer [Key.char 'a', Key.left, Key.left, Key.backspace,
      Key.right, Key.right, Key.up, Key.char 'b', Key.down]
    (Edit.mk [] 0 { Shell.init with history := ["ls".toList], historyIndex := 1 }) 2
    (by decide) (by decide) (by simp) (by simp) (by decide) (by simp) (by simp)).1 9
    (by decide)
  simpa using h

/-- C18: for every pipeline of `N ≥ 1` stages (with `N < 2^63`, so that `(N - 1) * 2`
does not wrap), every `pipe` and `fork` call succeeding, the parent in `executePipes`
makes exactly these calls, in this order: it allocates a table of `2 (N - 1)` entries,
creates the `N - 1` pipes at the table indices `0, 2, ..., 2 (N - 2)`, forks the `N`
children, closes the `2 (N - 1)` table entries and waits `N` times.  The child of stage
`i` takes its standard input from table index `2 (i - 1)` unless `i = 0` and sends its
standard output to table index `2 i + 1` unless `i = N - 1`, closes every table entry
and runs `commands[i]`.  Every table index used by a child, by `pipe` (which fills
`index` and `index + 1`) or by `close` lies inside the table. -/
theorem executePipes_wiring (pw : PipeWorld) (commands : List Str) (dp : Bool)
    (hne : commands ≠ []) (hN : commands.length < 2 ^ 63)
    (hpipe : ∀ i, i + 1 < commands.length → pw.pipe i = true)
    (hfork : ∀ i, i < commands.length → pw.fork i = true) :
    executePipes pw commands dp = .ok
      ([PipeCall.alloc (2 * (commands.length - 1))]
        ++ (List.range (commands.length - 1)).map (fun i => PipeCall.pipe (2 * i))
        ++ (List.range commands.length).map (fun i => PipeCall.fork
            { stdinFrom := if i = 0 then none else some (2 * (i - 1))
              stdoutTo := if i = commands.length - 1 then none else some (2 * i + 1)
              closes := List.range (2 * (commands.length - 1))
              command := commands.getD i []
              disablePrint := dp })
        ++ (List.range (2 * (commands.length - 1))).map PipeCall.close
        ++ List.replicate commands.length PipeCall.wait)
    ∧ ∀ calls, executePipes pw commands dp = .ok calls →
        (∀ j, PipeCall.pipe j ∈ calls → j + 1 < 2 * (commands.length - 1))
        ∧ (∀ j, PipeCall.close j ∈ calls → j < 2 * (commands.length - 1))
        ∧ (∀ st, PipeCall.fork st ∈ calls →
            (∀ j, st.stdinFrom = some j → j < 2 * (commands.length - 1))
            ∧ (∀ j, st.stdoutTo = some j → j < 2 * (commands.length - 1))
            ∧ (∀ j ∈ st.closes, j < 2 * (commands.length - 1))) := by
  have hcalls := executePipes_calls pw commands dp hne hN hpipe hfork
  have hpos : 0 < commands.length := List.length_pos.2 hne
  refine ⟨hcalls, ?_⟩
  intro calls h
  rw [hcalls] at h
  have hc := (Except.ok.inj h).symm
  subst hc
  refine ⟨?_, ?_, ?_⟩
  · intro j hj
    simp only [List.mem_append, List.mem_cons, List.mem_map, List.mem_range,
      List.mem_replicate, List.mem_singleton, reduceCtorEq, PipeCall.pipe.injEq,
      false_and, and_false, exists_false, or_false, false_or, List.not_mem_nil] at hj
    obtain ⟨i, hi, rfl⟩ := hj
    omega
  · intro j hj
    simp only [List.mem_append, List.mem_cons, List.mem_map, List.mem_range,
      List.mem_replicate, List.mem_singleton, reduceCtorEq, PipeCall.close.injEq,
      false_and, and_false, exists_false, or_false, false_or, List.not_mem_nil] at hj
    obtain ⟨i, hi, rfl⟩ := hj
    exact hi
  · intro st hst
    simp only [List.mem_append, List.mem_cons, List.mem_map, List.mem_range,
      List.mem_replicate, List.mem_singleton, reduceCtorEq, PipeCall.fork.injEq,
      false_and, and_false, exists_false, or_false, false_or, List.not_mem_nil] at hst
    obtain ⟨i, hi, rfl⟩ := hst
    refine ⟨?_, ?_, ?_⟩
    · intro j hj
      by_cases h0 : i = 0
      · simp [h0] at hj
      · simp only [h0, if_false, Option.some.injEq] at hj
        omega
    · intro j hj
      by_cases hl : i = commands.length - 1
      · simp [hl] at hj
      · simp only [hl, if_false, Option.some.injEq] at hj
        omega
    · intro j hj
      exact List.mem_range.1 hj

theorem executePipes_wiring_witness :
    executePipes (PipeWorld.mk (fun _ => true) (fun _ => true))
        ["ls".toList, "sort".toList, "wc".toList] false
      = .ok [PipeCall.alloc 4, .pipe 0, .pipe 2,
          .fork (Stage.mk none (some 1) [0, 1, 2, 3] "ls".toList false),
          .fork (Stage.mk (some 0) (some 3) [0, 1, 2, 3] "sort".toList false),
          .fork (Stage.mk (some 2) none [0, 1, 2, 3] "wc".toList false),
          .close 0, .close 1, .close 2, .close 3, .wait, .wait, .wait] :=
  (executePipes_wiring (PipeWorld.mk (fun _ => true) (fun _ => true))
    ["ls".toList, "sort".toList, "wc".toList] false (by simp) (by simp)
    (fun _ _ => rfl) (fun _ _ => rfl)).1

/-- C19: on every line (shorter than `2^64` characters), `ifCaseHandling` never raises
an out-of-range error: either it reports a parse error, returning -1 with only the
message written and no command executed, or each of the three `substr` calls it makes
starts at a position no greater than the length of the line and yields a non-empty
text, and it goes on to run these texts; then, the substitutions completing and the
two children being forked, it returns the status of the condition and has executed the
condition (output suppressed) followed by exactly one branch: the then-part when the
condition exited with 0, the else-part otherwise. -/
theorem ifCaseHandling_total (w : World) (s : Shell) (line : Str)
    (hlen : line.length < 2 ^ 64) :
    ((∃ msg, ifCaseHandling w s line = .ret (-1) (s.cerr msg)
          ∧ (ifCaseHandling w s line).ran? = some s.ran)
      ∨ (∃ c t e : Str, (c ≠ [] ∧ t ≠ [] ∧ e ≠ [])
          ∧ (2 ≤ line.length
            ∧ sizeAdd (findStr line "then".toList 0) 4 ≤ line.length
            ∧ sizeAdd (findStr line "else".toList 0) 4 ≤ line.length)
          ∧ substr line 2 (sizeSub (findStr line "then".toList 0) 2) = some c
          ∧ substr line (sizeAdd (findStr line "then".toList 0) 4)
              (sizeSub (sizeSub (findStr line "else".toList 0)
                (findStr line "then".toList 0)) 4) = some t
          ∧ substr line (sizeAdd (findStr line "else".toList 0) 4)
              (sizeSub (sizeSub (findStr line "fi".toList 0)
                (findStr line "else".toList 0)) 4) = some e
          ∧ ifCaseHandling w s line = ifRun w s c t e
          ∧ ∀ (c1 t1 e1 : Str) (pid1 pid2 : Nat) (st1 st2 : WaitStatus),
              substitute s.vars c = .ok c1 → substitute s.vars t = .ok t1 →
              substitute s.vars e = .ok e1 →
              w.fork s.spawned.length = .parent pid1 st1 →
              w.fork (s.spawned.length + 1) = .parent pid2 st2 →
              (ifCaseHandling w s line).value? = some (returned st1 true)
              ∧ (ifCaseHandling w s line).ran?
                  = some (s.ran ++ [(c1, true),
                      (if recorded st1 = 0 then t1 else e1, false)]))) := by
  rcases ifCaseHandling_cases w s line hlen with ⟨msg, hm⟩ | ⟨c, t, e, hne, h1, h2, h3, heq⟩
  · exact Or.inl ⟨msg, hm, by rw [hm]; rfl⟩
  · refine Or.inr ⟨c, t, e, hne, ⟨substr_start _ _ _ _ h1, substr_start _ _ _ _ h2,
      substr_start _ _ _ _ h3⟩, h1, h2, h3, heq, ?_⟩
    intro c1 t1 e1 pid1 pid2 st1 st2 hsc hst hse hf1 hf2
    rw [heq]
    exact ifRun_ran w s c t e c1 t1 e1 pid1 pid2 st1 st2 hne.1 hne.2.1 hne.2.2
      hsc hst hse hf1 hf2

theorem ifCaseHandling_total_witness :
    (ifCaseHandling (World.script [.exited 1]) Shell.init
        "if a then b else c fi".toList).value? = some 1
    ∧ (ifCaseHandling (World.script [.exited 1]) Shell.init
        "if a then b else c fi".toList).ran?
        = some [(" a ".toList, true), (" c ".toList, false)] := by
  rcases ifCaseHandling_total (World.script [.exited 1]) Shell.init
    "if a then b else c fi".toList (by simp) with
    ⟨msg, hm, -⟩ | ⟨c, t, e, -, -, h1, h2, h3, -, hrun⟩
  · have hv := congrArg Outcome.value? hm
    rw [show (ifCaseHandling (World.script [.exited 1]) Shell.init
        "if a then b else c fi".toList).value? = some 1 by decide] at hv
    simp [Outcome.value?] at hv
  · have hc : c = " a ".toList := Option.some.inj (h1.symm.trans (by decide))
    have ht : t = " b ".toList := Option.some.inj (h2.symm.trans (by decide))
    have he : e = " c ".toList := Option.some.inj (h3.symm.trans (by decide))
    subst hc ht he
    exact hrun " a ".toList " b ".toList " c ".toList 1 2 (.exited 1) (.exited 0)
      (by decide) (by decide) (by decide) (by decide) (by decide)

/-- C20: for every buffer, every cursor position `p` at most its length (the length
plus one within the `size_t` range) and every character `ch`, the keystroke `ch`
inserts it at `p` (the buffer grows by one, the cursor becomes `p + 1`), and Backspace
after it gives back the original buffer and the cursor position `p`, with the history
and the history cursor untouched. -/
theorem insert_then_backspace (ch : Char) (e : Edit)
    (hcur : e.cursorPosition ≤ e.input.length) (hlen : e.input.length + 1 < 2 ^ 64) :
    ∃ e1 e2, pressKey (.char ch) e = .ok e1
      ∧ e1.input = e.input.take e.cursorPosition ++ ch :: e.input.drop e.cursorPosition
      ∧ e1.input.length = e.input.length + 1
      ∧ e1.cursorPosition = e.cursorPosition + 1
      ∧ pressKey .backspace e1 = .ok e2
      ∧ e2.input = e.input ∧ e2.cursorPosition = e.cursorPosition
      ∧ e2.shell.history = e.shell.history
      ∧ e2.shell.historyIndex = e.shell.historyIndex := by
  have hc : ¬ e.cursorPosition > e.input.length := by omega
  have hlen1 : (e.input.take e.cursorPosition ++ ch :: e.input.drop e.cursorPosition).length
      = e.input.length + 1 := by
    simp only [List.length_append, List.length_take, List.length_cons, List.length_drop]
    omega
  have hpos : e.cursorPosition + 1 > 0
      ∧ ¬ (e.input.take e.cursorPosition ++ ch :: e.input.drop e.cursorPosition).isEmpty
        = true := by
    refine ⟨by omega, ?_⟩
    simp
  have herase : erase (e.input.take e.cursorPosition ++ ch :: e.input.drop e.cursorPosition)
      e.cursorPosition 1 = some e.input := by
    have ht : (e.input.take e.cursorPosition).length = e.cursorPosition := by
      rw [List.length_take]
      omega
    have h := erase_inserted (e.input.take e.cursorPosition) (e.input.drop e.cursorPosition) ch
    rw [ht, List.take_append_drop] at h
    exact h
  obtain ⟨e1, h1, hin1, hcur1, hh1, hi1⟩ : ∃ e1, pressKey (.char ch) e = .ok e1
      ∧ e1.input = e.input.take e.cursorPosition ++ ch :: e.input.drop e.cursorPosition
      ∧ e1.cursorPosition = e.cursorPosition + 1
      ∧ e1.shell.history = e.shell.history
      ∧ e1.shell.historyIndex = e.shell.historyIndex := by
    rw [pressKey, if_neg hc, sizeAdd_eq _ _ (by omega)]
    exact ⟨_, rfl, rfl, rfl, rfl, rfl⟩
  obtain ⟨e2, h2, hin2, hcur2, hh2, hi2⟩ : ∃ e2, pressKey .backspace e1 = .ok e2
      ∧ e2.input = e.input ∧ e2.cursorPosition = e.cursorPosition
      ∧ e2.shell.history = e1.shell.history
      ∧ e2.shell.historyIndex = e1.shell.historyIndex := by
    rw [pressKey, if_pos (by rw [hcur1, hin1]; exact hpos), hcur1,
      sizeSub_eq _ 1 (by omega) (by omega), Nat.add_sub_cancel, hin1, herase]
    exact ⟨_, rfl, rfl, rfl, rfl, rfl⟩
  exact ⟨e1, e2, h1, hin1, by rw [hin1]; exact hlen1, hcur1, h2, hin2, hcur2,
    by rw [hh2, hh1], by rw [hi2, hi1]⟩

theorem insert_then_backspace_witness :
    ∃ e1 e2, pressKey (.char 'x') (Edit.mk "ab".toList 1 Shell.init) = .ok e1
      ∧ e1.input = "axb".toList
      ∧ e1.input.length = 3
      ∧ e1.cursorPosition = 2
      ∧ pressKey .backspace e1 = .ok e2
      ∧ e2.input = "ab".toList ∧ e2.cursorPosition = 1
      ∧ e2.shell.history = [] ∧ e2.shell.historyIndex = 0 :=
  insert_then_backspace 'x' (Edit.mk "ab".toList 1 Shell.init) (by decide) (by simp)

end MyShell
